import Mathlib

/-!
Verification of `prioritymap`, an array-backed binary max-heap coupled with a
key-to-position index map (src/prioritymap.rs).

The embedding is shallow and executable:
* `Entry P K V` mirrors `struct Entry<P, K, V>`.
* `PriorityMap P K V` mirrors `struct PriorityMap<P, K, V>`; the Rust
  `HashMap<K, usize>` is modelled as an association list `List (K × Nat)` with
  `mapLookup` / `mapInsert` / `mapRemove` capturing `HashMap::get` /
  `HashMap::insert` / `HashMap::remove` semantics (insert replaces the
  binding of an existing key; one binding per key when built from empty).
* Rust's `P: PartialOrd` is modelled by an explicit comparison function
  `cmp : P → P → Option Ordering`, mirroring `partial_cmp`: `a < b` is
  `cmp a b = some .lt` and `a > b` is `cmp a b = some .gt`.
* The `sift` while-loop is modelled with explicit fuel (`siftGo`); the fuel
  `heap.length` is proven sufficient for both instantiations (`lesser_parent`
  and `greater_child`), which is exactly the termination argument.
* Rust indexing `heap[i]` panics out of bounds; the embedding returns the
  pre-panic state in those (unreachable under the structure invariant) cases.
-/

namespace PrioMap

/-- Mirrors `struct Entry<P, K, V> { priority, key, value }`. -/
structure Entry (P K V : Type) where
  priority : P
  key : K
  value : V
  deriving DecidableEq, Repr

/-- Mirrors `struct PriorityMap<P, K, V> { heap: Vec<Entry>, map: HashMap<K, usize> }`. -/
structure PriorityMap (P K V : Type) where
  heap : List (Entry P K V)
  map : List (K × Nat)
  deriving DecidableEq, Repr

variable {P K V : Type} [DecidableEq K]

/-- `HashMap::get` on the association-list model. -/
def mapLookup (m : List (K × Nat)) (k : K) : Option Nat :=
  match m with
  | [] => none
  | (k', v) :: rest => if k' = k then some v else mapLookup rest k

/-- `HashMap::insert` on the association-list model: replaces the binding of
`k` when present, otherwise appends it. -/
def mapInsert (m : List (K × Nat)) (k : K) (v : Nat) : List (K × Nat) :=
  match m with
  | [] => [(k, v)]
  | (k', v') :: rest =>
    if k' = k then (k, v) :: rest else (k', v') :: mapInsert rest k v

/-- `HashMap::remove` on the association-list model (drops the binding of `k`). -/
def mapRemove (m : List (K × Nat)) (k : K) : List (K × Nat) :=
  match m with
  | [] => []
  | (k', v') :: rest => if k' = k then rest else (k', v') :: mapRemove rest k

/-- `Vec::swap(i, j)` on lists: exchanges the elements at positions `i` and
`j`; out of bounds (where Rust panics) it returns the list unchanged. -/
def listSwap (l : List α) (i j : Nat) : List α :=
  match l.get? i, l.get? j with
  | some a, some b => (l.set i b).set j a
  | _, _ => l

/-- `Vec::swap_remove(i)`: removes and returns the element at position `i`,
moving the last element into its place. -/
def swapRemove (l : List α) (i : Nat) : List α × Option α :=
  match l.get? i, l.getLast? with
  | some a, some b => ((l.set i b).dropLast, some a)
  | _, _ => (l, none)

namespace PriorityMap

variable (cmp : P → P → Option Ordering)

/-- `PriorityMap::new()`. -/
def new : PriorityMap P K V := ⟨[], []⟩

/-- `PriorityMap::len()` returns `self.map.len()`. -/
def len (s : PriorityMap P K V) : Nat := s.map.length

/-- `PriorityMap::lesser_parent`: the parent `(position - 1) / 2`, provided it
exists and its priority is strictly less than the one at `position`. -/
def lesser_parent (s : PriorityMap P K V) (position : Nat) : Option Nat :=
  if position = 0 then none
  else
    let parent := (position - 1) / 2
    match s.heap.get? parent, s.heap.get? position with
    | some pe, some ce =>
      if cmp pe.priority ce.priority = some Ordering.lt then some parent else none
    | _, _ => none

/-- `PriorityMap::max_child`: the left child, unless a right child exists whose
priority is strictly greater than the left child's. -/
def max_child (s : PriorityMap P K V) (position : Nat) : Option Nat :=
  let left := 2 * position + 1
  if left < s.heap.length then
    let right := 2 * position + 2
    if right < s.heap.length then
      match s.heap.get? left, s.heap.get? right with
      | some le, some re =>
        if cmp le.priority re.priority = some Ordering.lt then some right else some left
      | _, _ => some left
    else some left
  else none

/-- `PriorityMap::greater_child`: the `max_child`, filtered to those whose
priority is strictly greater than the one at `position`. -/
def greater_child (s : PriorityMap P K V) (position : Nat) : Option Nat :=
  (max_child cmp s position).filter fun child =>
    match s.heap.get? child, s.heap.get? position with
    | some ce, some pe => decide (cmp ce.priority pe.priority = some Ordering.gt)
    | _, _ => false

/-- The while-loop of `PriorityMap::sift`, with explicit fuel. Each iteration
swaps `position` with `f`'s answer `other` and records the displaced key's new
position in the map. `none` means the fuel ran out (never happens for
`fuel = heap.length`, see the termination lemmas). -/
def siftGo (f : PriorityMap P K V → Nat → Option Nat) :
    Nat → PriorityMap P K V → Nat → Option (PriorityMap P K V × Nat)
  | 0, _, _ => none
  | fuel + 1, s, position =>
    match f s position with
    | none => some (s, position)
    | some other =>
      match s.heap.get? other with
      | none => some (s, position)
      | some oe =>
        siftGo f fuel ⟨listSwap s.heap other position, mapInsert s.map oe.key position⟩ other

/-- `PriorityMap::sift`: runs the loop, then records `original_key`'s final
position in the map. -/
def sift (f : PriorityMap P K V → Nat → Option Nat) (s : PriorityMap P K V)
    (position : Nat) : PriorityMap P K V × Nat :=
  match s.heap.get? position with
  | none => (s, position)
  | some e0 =>
    match siftGo f s.heap.length s position with
    | none => (s, position)
    | some (s', p') => (⟨s'.heap, mapInsert s'.map e0.key p'⟩, p')

/-- `PriorityMap::swim_up`. -/
def swim_up (s : PriorityMap P K V) (position : Nat) : PriorityMap P K V × Nat :=
  sift (lesser_parent cmp) s position

/-- `PriorityMap::sink_down`. -/
def sink_down (s : PriorityMap P K V) (position : Nat) : PriorityMap P K V × Nat :=
  sift (greater_child cmp) s position

/-- The `mem::swap` of `reprioritize_position`: overwrite the priority stored
at `position`, keeping key and value. -/
def set_priority (s : PriorityMap P K V) (position : Nat) (p : P) :
    PriorityMap P K V :=
  match s.heap.get? position with
  | none => s
  | some e => ⟨s.heap.set position ⟨p, e.key, e.value⟩, s.map⟩

/-- `PriorityMap::reprioritize_position`: swap in the new priority, swim when
the new priority is strictly greater than the old one, otherwise sink; returns
the old priority. -/
def reprioritize_position (s : PriorityMap P K V) (position : Nat) (priority : P) :
    PriorityMap P K V × Option P :=
  match s.heap.get? position with
  | none => (s, none)
  | some e =>
    if cmp priority e.priority = some Ordering.gt then
      ((swim_up cmp (set_priority s position priority) position).1, some e.priority)
    else
      ((sink_down cmp (set_priority s position priority) position).1, some e.priority)

/-- `PriorityMap::insert`: upsert. Occupied key: overwrite the value, then
`reprioritize_position`. Vacant key: record the end position in the map, push
the entry, and swim it up. -/
def insert (s : PriorityMap P K V) (priority : P) (key : K) (value : V) :
    PriorityMap P K V :=
  match mapLookup s.map key with
  | some position =>
    match s.heap.get? position with
    | none => s
    | some e =>
      (reprioritize_position cmp
        ⟨s.heap.set position ⟨e.priority, e.key, value⟩, s.map⟩ position priority).1
  | none =>
    let position := s.heap.length
    (swim_up cmp
      ⟨s.heap ++ [⟨priority, key, value⟩], mapInsert s.map key position⟩ position).1

/-- `PriorityMap::peek`. -/
def peek (s : PriorityMap P K V) : Option V :=
  (s.heap.get? 0).map fun e => e.value

/-- `PriorityMap::pop`: swap-remove the root, drop its key from the map, sink
the new root when the heap is still non-empty. -/
def pop (s : PriorityMap P K V) : PriorityMap P K V × Option V :=
  match s.heap with
  | [] => (s, none)
  | _ :: _ =>
    match swapRemove s.heap 0 with
    | (heap', some entry) =>
      let s' : PriorityMap P K V := ⟨heap', mapRemove s.map entry.key⟩
      if s'.heap.isEmpty then (s', some entry.value)
      else ((sink_down cmp s' 0).1, some entry.value)
    | (_, none) => (s, none)

/-- `PriorityMap::remove`: drop the key from the map, swap-remove its heap
position, and sink the relocated occupant when the position is still inside
the heap. -/
def remove (s : PriorityMap P K V) (key : K) : PriorityMap P K V × Option V :=
  match mapLookup s.map key with
  | none => (s, none)
  | some position =>
    match swapRemove s.heap position with
    | (heap', some entry) =>
      let s' : PriorityMap P K V := ⟨heap', mapRemove s.map key⟩
      if position < s'.heap.length then ((sink_down cmp s' position).1, some entry.value)
      else (s', some entry.value)
    | (_, none) => (⟨s.heap, mapRemove s.map key⟩, none)

/-- `PriorityMap::reprioritize`. -/
def reprioritize (s : PriorityMap P K V) (key : K) (priority : P) :
    PriorityMap P K V × Option P :=
  match mapLookup s.map key with
  | none => (s, none)
  | some position => reprioritize_position cmp s position priority

/-- States reachable from `new` by the public operations (`peek` takes `&self`
and never mutates, so it does not appear). -/
inductive Reachable (cmp : P → P → Option Ordering) : PriorityMap P K V → Prop where
  | new : Reachable cmp new
  | insert {s : PriorityMap P K V} (p : P) (k : K) (v : V) :
      Reachable cmp s → Reachable cmp (insert cmp s p k v)
  | pop {s : PriorityMap P K V} :
      Reachable cmp s → Reachable cmp (pop cmp s).1
  | remove {s : PriorityMap P K V} (k : K) :
      Reachable cmp s → Reachable cmp (remove cmp s k).1
  | reprioritize {s : PriorityMap P K V} (k : K) (p : P) :
      Reachable cmp s → Reachable cmp (reprioritize cmp s k p).1

end PriorityMap

open PriorityMap

/-- The comparison of a total order on `Nat`, mirroring `partial_cmp` for a
priority type whose `PartialOrd` is total. -/
def natCmp (a b : Nat) : Option Ordering := some (compare a b)

/-- The comparison of the product (pointwise) partial order on `Nat × Nat`,
mirroring `partial_cmp` for a genuinely partial `PartialOrd`: two pairs are
incomparable when each is ahead in one component. -/
def prodCmp (a b : Nat × Nat) : Option Ordering :=
  if a.1 = b.1 ∧ a.2 = b.2 then some Ordering.eq
  else if a.1 ≤ b.1 ∧ a.2 ≤ b.2 then some Ordering.lt
  else if b.1 ≤ a.1 ∧ b.2 ≤ a.2 then some Ordering.gt
  else none

/-- The values returned by `n` successive calls of `pop`. -/
def popList (cmp : P → P → Option Ordering) [DecidableEq K] :
    Nat → PriorityMap P K V → List V
  | 0, _ => []
  | n + 1, s =>
    match pop cmp s with
    | (_, none) => []
    | (s2, some v) => v :: popList cmp n s2

/-- The state left behind by `n` successive calls of `pop`. -/
def popState (cmp : P → P → Option Ordering) [DecidableEq K] :
    Nat → PriorityMap P K V → PriorityMap P K V
  | 0, s => s
  | n + 1, s =>
    match pop cmp s with
    | (s2, none) => s2
    | (s2, some _) => popState cmp n s2

/-- Executable check of the index half of the twin invariant: every key in the
map addresses a heap entry carrying exactly that key. -/
def index_ok [DecidableEq K] (s : PriorityMap P K V) : Bool :=
  s.map.all fun kv =>
    match s.heap.get? kv.2 with
    | some e => decide (e.key = kv.1)
    | none => false

/-- Executable check of the order half of the twin invariant: no position with
a priority comparable to, and strictly below, a present child's priority. -/
def heap_order_ok (cmp : P → P → Option Ordering) (s : PriorityMap P K V) : Bool :=
  (List.range s.heap.length).all fun j =>
    decide (j = 0) ||
    match s.heap.get? ((j - 1) / 2), s.heap.get? j with
    | some pe, some ce => !(decide (cmp pe.priority ce.priority = some Ordering.lt))
    | _, _ => false

/-- The twin invariant, as an executable check. -/
def invariant_ok [DecidableEq K] (cmp : P → P → Option Ordering)
    (s : PriorityMap P K V) : Bool :=
  index_ok s && heap_order_ok cmp s

/-- The order half of the twin invariant as a proposition: whenever a parent
and child are both present, the parent's priority is not comparable-and-below
the child's. -/
def HeapOrd (cmp : P → P → Option Ordering) (s : PriorityMap P K V) : Prop :=
  ∀ j pe ce, 0 < j → s.heap.get? ((j - 1) / 2) = some pe →
    s.heap.get? j = some ce → cmp pe.priority ce.priority ≠ some Ordering.lt

/-- The keys bound in the index map are, up to permutation, exactly the keys
stored in the heap. -/
def MapKeysPerm (s : PriorityMap P K V) : Prop :=
  (s.map.map Prod.fst).Perm (s.heap.map Entry.key)

/-- Every key stored in the heap has a binding in the index map. -/
def keys_covered [DecidableEq K] (s : PriorityMap P K V) : Prop :=
  ∀ e ∈ s.heap, (mapLookup s.map e.key).isSome = true

/-- The keys stored in the heap are pairwise distinct. -/
def keys_nodup (s : PriorityMap P K V) : Prop :=
  (s.heap.map Entry.key).Nodup

/-- The number of heap entries carrying the key `k`. -/
def key_count [DecidableEq K] (s : PriorityMap P K V) (k : K) : Nat :=
  s.heap.countP fun e => decide (e.key = k)

/-- The max-heap order for `Nat` priorities: every present child's priority is
at most its parent's. -/
def HeapLe (s : PriorityMap Nat K V) : Prop :=
  ∀ j pe ce, 0 < j → s.heap.get? ((j - 1) / 2) = some pe →
    s.heap.get? j = some ce → ce.priority ≤ pe.priority

/-- Upward sift precondition: the heap is ordered except possibly on the edge
into `q`, and `q`'s parent already dominates `q`'s children. -/
def SwimPre (s : PriorityMap Nat K V) (q : Nat) : Prop :=
  (∀ j pe ce, 0 < j → j ≠ q → s.heap.get? ((j - 1) / 2) = some pe →
    s.heap.get? j = some ce → ce.priority ≤ pe.priority)
  ∧ (0 < q → ∀ c ge ce, 0 < c → (c - 1) / 2 = q →
      s.heap.get? ((q - 1) / 2) = some ge → s.heap.get? c = some ce →
      ce.priority ≤ ge.priority)

/-- Downward sift precondition: the heap is ordered except possibly on the
edges out of `q`, and `q`'s parent already dominates `q`'s children. -/
def SinkPre (s : PriorityMap Nat K V) (q : Nat) : Prop :=
  (∀ j pe ce, 0 < j → (j - 1) / 2 ≠ q → s.heap.get? ((j - 1) / 2) = some pe →
    s.heap.get? j = some ce → ce.priority ≤ pe.priority)
  ∧ (0 < q → ∀ c ge ce, 0 < c → (c - 1) / 2 = q →
      s.heap.get? ((q - 1) / 2) = some ge → s.heap.get? c = some ce →
      ce.priority ≤ ge.priority)

/-- The state reached by inserting priorities 10, 1, 9, 0, 0, 8, 9 under keys
0–6 (values equal to priorities) and then removing key 3. `remove` relocates
the last entry (priority 9) to position 3 and only sinks it, leaving it below
its priority-1 parent. -/
def bugBase : PriorityMap Nat Nat Nat :=
  insert natCmp (insert natCmp (insert natCmp (insert natCmp (insert natCmp
    (insert natCmp (insert natCmp new 10 0 10) 1 1 1) 9 2 9) 0 3 0) 0 4 0)
    8 5 8) 9 6 9

/-- `bugBase` after `remove 3`: a reachable state violating the heap order. -/
def bugState : PriorityMap Nat Nat Nat := (remove natCmp bugBase 3).1

/-- A reachable state over the product partial order `prodCmp`: four inserts,
one pop, one insert, one remove. Key 100 holds priority `(1, 1)` at the root
while position 2 holds the comparable, strictly greater `(5, 5)`. -/
def c10State : PriorityMap (Nat × Nat) Nat Nat :=
  (remove prodCmp
    (insert prodCmp
      (pop prodCmp
        (insert prodCmp (insert prodCmp (insert prodCmp
          (insert prodCmp new (10, 10) 0 0) (0, 10) 1 1) (5, 5) 2 2) (1, 1) 100 100)).1
      (3, 0) 3 3) 1).1

/-- Priorities 5, 3, 4 under keys 0, 1, 2: lowering the root's priority to 1
must sink it; swimming instead would leave the heap unordered. -/
def c3State : PriorityMap Nat Nat Nat :=
  insert natCmp (insert natCmp (insert natCmp new 5 0 5) 3 1 3) 4 2 4

/-- The seven `(priority, key, value)` triples of the §8 scenario: priorities
1–7 mapped to keys `a`–`g`, with each entry's value encoding the digit of its
priority. -/
def c8Base : List (Nat × Char × Nat) :=
  [(1, 'a', 1), (2, 'b', 2), (3, 'c', 3), (4, 'd', 4), (5, 'e', 5), (6, 'f', 6),
    (7, 'g', 7)]

/-- The entry built from one scenario triple. -/
def toEntry (x : Nat × Char × Nat) : Entry Nat Char Nat := ⟨x.1, x.2.1, x.2.2⟩

/-- Insert a list of `(priority, key, value)` triples, in order, into an empty
structure. -/
def runInserts (l : List (Nat × Char × Nat)) : PriorityMap Nat Char Nat :=
  l.foldl (fun s x => insert natCmp s x.1 x.2.1 x.2.2) new

/-- The scenario's entries listed in strictly decreasing priority order. -/
def c8Expected : List (Entry Nat Char Nat) :=
  [⟨7, 'g', 7⟩, ⟨6, 'f', 6⟩, ⟨5, 'e', 5⟩, ⟨4, 'd', 4⟩, ⟨3, 'c', 3⟩, ⟨2, 'b', 2⟩,
    ⟨1, 'a', 1⟩]

/-! ## Basic lemmas about the `HashMap` model -/

theorem mapLookup_eq_none_iff {m : List (K × Nat)} {k : K} :
    mapLookup m k = none ↔ k ∉ m.map Prod.fst := by
  induction m with
  | nil => simp [mapLookup]
  | cons kv rest ih =>
    obtain ⟨k', v⟩ := kv
    by_cases h : k' = k
    · subst h
      simp [mapLookup]
    · simp only [mapLookup, if_neg h, List.map_cons, List.mem_cons]
      rw [ih]
      constructor
      · intro h1 h2
        rcases h2 with h2 | h2
        · exact h h2.symm
        · exact h1 h2
      · intro h1 h2
        exact h1 (Or.inr h2)

theorem mapLookup_isSome_iff {m : List (K × Nat)} {k : K} :
    (mapLookup m k).isSome = true ↔ k ∈ m.map Prod.fst := by
  constructor
  · intro h
    by_contra hmem
    rw [mapLookup_eq_none_iff.mpr hmem] at h
    simp at h
  · intro h
    rcases hl : mapLookup m k with _ | v
    · exact absurd h (mapLookup_eq_none_iff.mp hl)
    · rfl

theorem mapLookup_mapInsert_self (m : List (K × Nat)) (k : K) (v : Nat) :
    mapLookup (mapInsert m k v) k = some v := by
  induction m with
  | nil => simp [mapInsert, mapLookup]
  | cons kv rest ih =>
    obtain ⟨k', v'⟩ := kv
    by_cases h : k' = k <;> simp [mapInsert, mapLookup, h, ih]

theorem mapLookup_mapInsert_ne {k' k : K} (m : List (K × Nat)) (v : Nat)
    (h : k' ≠ k) : mapLookup (mapInsert m k v) k' = mapLookup m k' := by
  have hne : ¬ k = k' := fun hh => h hh.symm
  induction m with
  | nil => simp [mapInsert, mapLookup, hne]
  | cons kv rest ih =>
    obtain ⟨k₀, v₀⟩ := kv
    by_cases hk : k₀ = k
    · subst hk
      simp [mapInsert, mapLookup, hne]
    · by_cases hk' : k₀ = k' <;> simp [mapInsert, mapLookup, hk, hk', ih, h]

theorem mapInsert_fst_of_mem {m : List (K × Nat)} {k : K} (v : Nat)
    (h : k ∈ m.map Prod.fst) :
    (mapInsert m k v).map Prod.fst = m.map Prod.fst := by
  induction m with
  | nil => simp at h
  | cons kv rest ih =>
    obtain ⟨k', v'⟩ := kv
    by_cases hk : k' = k
    · simp [mapInsert, hk]
    · have h' : k ∈ rest.map Prod.fst := by
        simp only [List.map_cons, List.mem_cons] at h
        rcases h with h | h
        · exact absurd h.symm hk
        · exact h
      simp [mapInsert, hk, ih h']

theorem mapInsert_fst_of_not_mem {m : List (K × Nat)} {k : K} (v : Nat)
    (h : k ∉ m.map Prod.fst) :
    (mapInsert m k v).map Prod.fst = m.map Prod.fst ++ [k] := by
  induction m with
  | nil => simp [mapInsert]
  | cons kv rest ih =>
    obtain ⟨k', v'⟩ := kv
    simp only [List.map_cons, List.mem_cons] at h
    push_neg at h
    have hne : ¬ k' = k := fun hh => h.1 hh.symm
    simp [mapInsert, hne, ih h.2]

theorem mapInsert_length_of_mem {m : List (K × Nat)} {k : K} (v : Nat)
    (h : k ∈ m.map Prod.fst) : (mapInsert m k v).length = m.length := by
  have h1 : ((mapInsert m k v).map Prod.fst).length = (m.map Prod.fst).length := by
    rw [mapInsert_fst_of_mem v h]
  simpa using h1

theorem mapInsert_eq_self {m : List (K × Nat)} {k : K} {v : Nat}
    (h : mapLookup m k = some v) : mapInsert m k v = m := by
  induction m with
  | nil => simp [mapLookup] at h
  | cons kv rest ih =>
    obtain ⟨k', v'⟩ := kv
    by_cases hk : k' = k
    · subst hk
      simp [mapLookup] at h
      simp [mapInsert, h]
    · simp [mapLookup, hk] at h
      simp [mapInsert, hk, ih h]

theorem mapRemove_fst (m : List (K × Nat)) (k : K) :
    (mapRemove m k).map Prod.fst = (m.map Prod.fst).erase k := by
  induction m with
  | nil => simp [mapRemove]
  | cons kv rest ih =>
    obtain ⟨k', v'⟩ := kv
    by_cases hk : k' = k <;> simp [mapRemove, hk, List.erase_cons, ih]

/-! ## Basic lemmas about `listSwap` and `swapRemove` -/

theorem listSwap_length (l : List α) (i j : Nat) :
    (listSwap l i j).length = l.length := by
  unfold listSwap
  split <;> simp

theorem set_of_get? {l : List α} {i : Nat} {a : α} (h : l.get? i = some a) :
    l.set i a = l := by
  induction l generalizing i with
  | nil => exact absurd h (by simp)
  | cons x t ih =>
    cases i with
    | zero =>
      rw [List.get?_cons_zero] at h
      rw [Option.some.inj h]
      simp
    | succ n =>
      rw [List.get?_cons_succ] at h
      simp [ih h]

theorem get?_listSwap {l : List α} {i j : Nat} (hi : i < l.length)
    (hj : j < l.length) (m : Nat) :
    (listSwap l i j).get? m =
      if m = j then l.get? i else if m = i then l.get? j else l.get? m := by
  obtain ⟨a, ha⟩ : ∃ a, l.get? i = some a := ⟨_, List.get?_eq_get hi⟩
  obtain ⟨b, hb⟩ : ∃ b, l.get? j = some b := ⟨_, List.get?_eq_get hj⟩
  unfold listSwap
  rw [ha, hb]
  by_cases hmj : m = j
  · subst hmj
    rw [List.get?_set_eq_of_lt a (by simpa using hj)]
    simp
  · rw [List.get?_set_ne _ _ (fun hh => hmj hh.symm), if_neg hmj]
    by_cases hmi : m = i
    · subst hmi
      rw [List.get?_set_eq_of_lt b hi]
      simp
    · rw [List.get?_set_ne _ _ (fun hh => hmi hh.symm), if_neg hmi]

theorem cons_set_perm {t : List α} {m : Nat} {x : α} (h : t.get? m = some x)
    (y : α) : (x :: t.set m y).Perm (y :: t) := by
  induction t generalizing m with
  | nil => exact absurd h (by simp)
  | cons z t' ih =>
    cases m with
    | zero =>
      rw [List.get?_cons_zero] at h
      rw [← Option.some.inj h]
      simpa using List.Perm.swap y z t'
    | succ n =>
      rw [List.get?_cons_succ] at h
      have h1 : (x :: (z :: t').set (n + 1) y) = x :: z :: t'.set n y := by simp
      rw [h1]
      refine List.Perm.trans (List.Perm.swap z x _) ?_
      refine List.Perm.trans ((ih h).cons z) ?_
      exact List.Perm.swap y z t'

theorem set_set_perm {l : List α} {i j : Nat} {a b : α}
    (hi : l.get? i = some a) (hj : l.get? j = some b) :
    ((l.set i b).set j a).Perm l := by
  induction l generalizing i j with
  | nil => exact absurd hi (by simp)
  | cons x t ih =>
    cases i with
    | zero =>
      rw [List.get?_cons_zero] at hi
      cases j with
      | zero =>
        rw [List.get?_cons_zero] at hj
        rw [← Option.some.inj hi, ← Option.some.inj hj]
        simp
      | succ n =>
        rw [List.get?_cons_succ] at hj
        rw [← Option.some.inj hi]
        have h1 : ((x :: t).set 0 b).set (n + 1) x = b :: t.set n x := by simp
        rw [h1]
        exact cons_set_perm hj x
    | succ n =>
      rw [List.get?_cons_succ] at hi
      cases j with
      | zero =>
        rw [List.get?_cons_zero] at hj
        rw [← Option.some.inj hj]
        have h1 : ((x :: t).set (n + 1) x).set 0 a = a :: t.set n x := by simp
        rw [h1]
        exact cons_set_perm hi x
      | succ p =>
        rw [List.get?_cons_succ] at hj
        have h1 : ((x :: t).set (n + 1) b).set (p + 1) a = x :: (t.set n b).set p a := by
          simp
        rw [h1]
        exact (ih hi hj).cons x

theorem listSwap_perm (l : List α) (i j : Nat) : (listSwap l i j).Perm l := by
  rcases hi : l.get? i with _ | a
  · unfold listSwap
    rw [hi]
  rcases hj : l.get? j with _ | b
  · unfold listSwap
    rw [hi, hj]
  unfold listSwap
  rw [hi, hj]
  exact set_set_perm hi hj

theorem exists_getLast?_of_ne_nil {l : List α} (hne : l ≠ []) :
    ∃ b, l.getLast? = some b := by
  cases l with
  | nil => exact absurd rfl hne
  | cons x t => exact ⟨_, List.getLast?_eq_getLast_of_ne_nil (by simp)⟩

theorem swapRemove_fst_length {l : List α} {i : Nat} (hi : i < l.length) :
    (swapRemove l i).1.length = l.length - 1 := by
  obtain ⟨a, ha⟩ : ∃ a, l.get? i = some a := ⟨_, List.get?_eq_get hi⟩
  have hne : l ≠ [] := by rintro rfl; simp at hi
  obtain ⟨b, hb⟩ := exists_getLast?_of_ne_nil hne
  unfold swapRemove
  rw [ha, hb]
  simp

theorem swapRemove_snd {l : List α} {i : Nat} {a : α} (h : l.get? i = some a) :
    (swapRemove l i).2 = some a := by
  have hi : i < l.length := by
    by_contra hlt
    rw [List.get?_eq_none.mpr (Nat.le_of_not_lt hlt)] at h
    exact Option.noConfusion h
  have hne : l ≠ [] := by rintro rfl; simp at hi
  obtain ⟨b, hb⟩ := exists_getLast?_of_ne_nil hne
  unfold swapRemove
  rw [h, hb]

theorem swapRemove_perm {l : List α} {i : Nat} {a : α} (h : l.get? i = some a) :
    (a :: (swapRemove l i).1).Perm l := by
  have hi : i < l.length := by
    by_contra hlt
    rw [List.get?_eq_none.mpr (Nat.le_of_not_lt hlt)] at h
    exact Option.noConfusion h
  have hne : l ≠ [] := by rintro rfl; simp at hi
  obtain ⟨b, hb⟩ := exists_getLast?_of_ne_nil hne
  have hgl : l.getLast hne = b := by
    have h2 := List.getLast?_eq_getLast_of_ne_nil hne
    rw [h2] at hb
    exact Option.some.inj hb
  have hrep : l = l.dropLast ++ [b] := by
    rw [← hgl]
    exact (List.dropLast_append_getLast hne).symm
  unfold swapRemove
  rw [h, hb]
  simp only
  rcases Nat.lt_or_ge i (l.length - 1) with hlt | hge
  · have hset : (l.set i b).dropLast = l.dropLast.set i b := by
      conv_lhs => rw [hrep]
      rw [List.set_append, if_pos (by simp; omega)]
      simp
    rw [hset]
    have hget : l.dropLast.get? i = some a := by
      rw [List.dropLast_eq_take, List.get?_take (by omega)]
      exact h
    refine List.Perm.trans (cons_set_perm hget b) ?_
    refine List.Perm.trans (List.perm_append_singleton b _).symm ?_
    rw [← hrep]
  · have hieq : i = l.length - 1 := by omega
    have hab : b = a := by
      rw [List.getLast?_eq_get?, ← hieq, h] at hb
      exact (Option.some.inj hb).symm
    subst hab
    rw [set_of_get? h]
    refine List.Perm.trans (List.perm_append_singleton b _).symm ?_
    rw [← hrep]

theorem get?_swapRemove {l : List α} {i : Nat} (hi : i < l.length) (j : Nat)
    (hj : j < l.length - 1) (hne : j ≠ i) :
    (swapRemove l i).1.get? j = l.get? j := by
  obtain ⟨a, ha⟩ : ∃ a, l.get? i = some a := ⟨_, List.get?_eq_get hi⟩
  have hlnil : l ≠ [] := by rintro rfl; simp at hi
  obtain ⟨b, hb⟩ := exists_getLast?_of_ne_nil hlnil
  unfold swapRemove
  rw [ha, hb]
  simp only
  rw [List.dropLast_eq_take, List.get?_take (by simp; omega),
    List.get?_set_ne _ _ (fun hh => hne hh.symm)]

/-! ## Comparison facts for the total order on `Nat` -/

theorem natCmp_eq_lt {a b : Nat} : natCmp a b = some Ordering.lt ↔ a < b := by
  simp [natCmp, Nat.compare_eq_lt]

theorem natCmp_eq_gt {a b : Nat} : natCmp a b = some Ordering.gt ↔ b < a := by
  simp [natCmp, Nat.compare_eq_gt]

theorem natCmp_ne_lt {a b : Nat} : natCmp a b ≠ some Ordering.lt ↔ b ≤ a := by
  rw [Ne, natCmp_eq_lt, Nat.not_lt]

theorem natCmp_symm {a b : Nat} :
    natCmp a b = some Ordering.lt ↔ natCmp b a = some Ordering.gt := by
  rw [natCmp_eq_lt, natCmp_eq_gt]

theorem natCmp_gt_fn : ∀ a b : Nat,
    natCmp a b = some Ordering.gt → natCmp b a = some Ordering.lt := by
  intro a b h
  rw [natCmp_eq_gt] at h
  rw [natCmp_eq_lt]
  exact h

theorem natCmp_refl (a : Nat) : natCmp a a = some Ordering.eq := by
  simp [natCmp, Nat.compare_eq_eq]

/-! ## Characterizations of `lesser_parent`, `max_child`, `greater_child` -/

theorem lesser_parent_some {cmp : P → P → Option Ordering}
    {s : PriorityMap P K V} {q t : Nat}
    (h : lesser_parent cmp s q = some t) :
    t = (q - 1) / 2 ∧ 0 < q ∧ t < q ∧
      ∃ pe ce, s.heap.get? t = some pe ∧ s.heap.get? q = some ce ∧
        cmp pe.priority ce.priority = some Ordering.lt := by
  unfold lesser_parent at h
  by_cases hq : q = 0
  · rw [if_pos hq] at h
    exact absurd h (by simp)
  rw [if_neg hq] at h
  simp only [] at h
  rcases hpe : s.heap.get? ((q - 1) / 2) with _ | pe <;> rw [hpe] at h
  · exact absurd h (by simp)
  rcases hce : s.heap.get? q with _ | ce <;> rw [hce] at h
  · exact absurd h (by simp)
  simp only [] at h
  by_cases hlt : cmp pe.priority ce.priority = some Ordering.lt
  · rw [if_pos hlt] at h
    have ht : t = (q - 1) / 2 := (Option.some.inj h).symm
    subst ht
    exact ⟨rfl, Nat.pos_of_ne_zero hq, by omega, pe, ce, hpe, rfl, hlt⟩

  · rw [if_neg hlt] at h
    exact absurd h (by simp)

theorem lesser_parent_none_of_not_lt {cmp : P → P → Option Ordering}
    {s : PriorityMap P K V} {q : Nat} {pe ce : Entry P K V} (hq : q ≠ 0)
    (hpe : s.heap.get? ((q - 1) / 2) = some pe) (hce : s.heap.get? q = some ce)
    (hnlt : ¬ cmp pe.priority ce.priority = some Ordering.lt) :
    lesser_parent cmp s q = none := by
  unfold lesser_parent
  rw [if_neg hq]
  simp only []
  rw [hpe, hce]
  simp only []
  rw [if_neg hnlt]

theorem lesser_parent_zero (cmp : P → P → Option Ordering)
    (s : PriorityMap P K V) : lesser_parent cmp s 0 = none := by
  simp [lesser_parent]

theorem max_child_some {cmp : P → P → Option Ordering}
    {s : PriorityMap P K V} {q t : Nat} (h : max_child cmp s q = some t) :
    (t = 2 * q + 1 ∨ t = 2 * q + 2) ∧ t < s.heap.length := by
  unfold max_child at h
  by_cases h1 : 2 * q + 1 < s.heap.length
  · rw [if_pos h1] at h
    simp only at h
    by_cases h2 : 2 * q + 2 < s.heap.length
    · rw [if_pos h2] at h
      rcases hle : s.heap.get? (2 * q + 1) with _ | le <;> rw [hle] at h
      · exact ⟨Or.inl (Option.some.inj h).symm, (Option.some.inj h) ▸ h1⟩
      rcases hre : s.heap.get? (2 * q + 2) with _ | re <;> rw [hre] at h
      · exact ⟨Or.inl (Option.some.inj h).symm, (Option.some.inj h) ▸ h1⟩
      simp only [] at h
      by_cases hlt : cmp le.priority re.priority = some Ordering.lt
      · rw [if_pos hlt] at h
        exact ⟨Or.inr (Option.some.inj h).symm, (Option.some.inj h) ▸ h2⟩
      · rw [if_neg hlt] at h
        exact ⟨Or.inl (Option.some.inj h).symm, (Option.some.inj h) ▸ h1⟩
    · rw [if_neg h2] at h
      exact ⟨Or.inl (Option.some.inj h).symm, (Option.some.inj h) ▸ h1⟩
  · rw [if_neg h1] at h
    exact absurd h (by simp)

theorem max_child_none {cmp : P → P → Option Ordering}
    {s : PriorityMap P K V} {q : Nat} (h1 : ¬ 2 * q + 1 < s.heap.length) :
    max_child cmp s q = none := by
  simp [max_child, h1]

theorem max_child_left_only {cmp : P → P → Option Ordering}
    {s : PriorityMap P K V} {q : Nat} (h1 : 2 * q + 1 < s.heap.length)
    (h2 : ¬ 2 * q + 2 < s.heap.length) : max_child cmp s q = some (2 * q + 1) := by
  simp [max_child, h1, h2]

theorem max_child_both {cmp : P → P → Option Ordering}
    {s : PriorityMap P K V} {q : Nat} {le re : Entry P K V}
    (h1 : s.heap.get? (2 * q + 1) = some le)
    (h2 : s.heap.get? (2 * q + 2) = some re) :
    max_child cmp s q =
      if cmp le.priority re.priority = some Ordering.lt then some (2 * q + 2)
      else some (2 * q + 1) := by
  have hl : 2 * q + 1 < s.heap.length := by
    by_contra hc
    rw [List.get?_eq_none.mpr (Nat.le_of_not_lt hc)] at h1
    exact Option.noConfusion h1
  have hr : 2 * q + 2 < s.heap.length := by
    by_contra hc
    rw [List.get?_eq_none.mpr (Nat.le_of_not_lt hc)] at h2
    exact Option.noConfusion h2
  simp only [max_child, if_pos hl, if_pos hr, h1, h2]

theorem greater_child_some {cmp : P → P → Option Ordering}
    {s : PriorityMap P K V} {q t : Nat} (h : greater_child cmp s q = some t) :
    max_child cmp s q = some t ∧ q < t ∧ t < s.heap.length ∧
      ∃ ce pe, s.heap.get? t = some ce ∧ s.heap.get? q = some pe ∧
        cmp ce.priority pe.priority = some Ordering.gt := by
  unfold greater_child at h
  rw [Option.filter_eq_some] at h
  obtain ⟨hmem, hcond⟩ := h
  have hmc : max_child cmp s q = some t := by
    rcases hm : max_child cmp s q with _ | u <;> rw [hm] at hmem
    · simp at hmem
    · simp at hmem
      rw [hmem]
  have hmm := max_child_some hmc
  rcases hce : s.heap.get? t with _ | ce <;> rw [hce] at hcond
  · simp at hcond
  rcases hpe : s.heap.get? q with _ | pe <;> rw [hpe] at hcond
  · simp at hcond
  have hgt : cmp ce.priority pe.priority = some Ordering.gt := by
    simpa using hcond
  refine ⟨hmc, ?_, hmm.2, ce, pe, rfl, rfl, hgt⟩
  rcases hmm.1 with h | h <;> omega

theorem greater_child_eq_some {cmp : P → P → Option Ordering}
    {s : PriorityMap P K V} {q t : Nat} {ce pe : Entry P K V}
    (hmc : max_child cmp s q = some t) (hce : s.heap.get? t = some ce)
    (hpe : s.heap.get? q = some pe)
    (hgt : cmp ce.priority pe.priority = some Ordering.gt) :
    greater_child cmp s q = some t := by
  unfold greater_child
  rw [Option.filter_eq_some, hmc]
  refine ⟨by simp, ?_⟩
  rw [hce, hpe]
  simpa using hgt

theorem greater_child_eq_none {cmp : P → P → Option Ordering}
    {s : PriorityMap P K V} {q t : Nat} {ce pe : Entry P K V}
    (hmc : max_child cmp s q = some t) (hce : s.heap.get? t = some ce)
    (hpe : s.heap.get? q = some pe)
    (hng : ¬ cmp ce.priority pe.priority = some Ordering.gt) :
    greater_child cmp s q = none := by
  rcases hg : greater_child cmp s q with _ | u
  · rfl
  · obtain ⟨hmc2, hqt, htl, ce2, pe2, hce2, hpe2, hgt2⟩ := greater_child_some hg
    rw [hmc] at hmc2
    obtain rfl : t = u := Option.some.inj hmc2
    rw [hce] at hce2
    obtain rfl : ce = ce2 := Option.some.inj hce2
    rw [hpe] at hpe2
    obtain rfl : pe = pe2 := Option.some.inj hpe2
    exact absurd hgt2 hng

theorem greater_child_none_of_max_none {cmp : P → P → Option Ordering}
    {s : PriorityMap P K V} {q : Nat} (hmc : max_child cmp s q = none) :
    greater_child cmp s q = none := by
  unfold greater_child
  rw [hmc]
  rfl

/-! ## Generic facts about the sift loop -/

theorem siftGo_heap_length {f : PriorityMap P K V → Nat → Option Nat} :
    ∀ {fuel : Nat} {s : PriorityMap P K V} {q : Nat}
      {s' : PriorityMap P K V} {q' : Nat},
      siftGo f fuel s q = some (s', q') → s'.heap.length = s.heap.length := by
  intro fuel
  induction fuel with
  | zero => intro s q s' q' h; exact absurd h (by simp [siftGo])
  | succ fuel ih =>
    intro s q s' q' h
    unfold siftGo at h
    rcases hf : f s q with _ | t <;> rw [hf] at h <;> simp only [] at h
    · obtain ⟨rfl, rfl⟩ := Prod.mk.inj (Option.some.inj h)
      rfl
    · rcases hoe : s.heap.get? t with _ | oe <;> rw [hoe] at h <;> simp only [] at h
      · obtain ⟨rfl, rfl⟩ := Prod.mk.inj (Option.some.inj h)
        rfl
      · have hlen := ih h
        rw [hlen]
        simp [listSwap_length]

theorem siftGo_heap_perm {f : PriorityMap P K V → Nat → Option Nat} :
    ∀ {fuel : Nat} {s : PriorityMap P K V} {q : Nat}
      {s' : PriorityMap P K V} {q' : Nat},
      siftGo f fuel s q = some (s', q') → s'.heap.Perm s.heap := by
  intro fuel
  induction fuel with
  | zero => intro s q s' q' h; exact absurd h (by simp [siftGo])
  | succ fuel ih =>
    intro s q s' q' h
    unfold siftGo at h
    rcases hf : f s q with _ | t <;> rw [hf] at h <;> simp only [] at h
    · obtain ⟨rfl, rfl⟩ := Prod.mk.inj (Option.some.inj h)
      exact List.Perm.refl _
    · rcases hoe : s.heap.get? t with _ | oe <;> rw [hoe] at h <;> simp only [] at h
      · obtain ⟨rfl, rfl⟩ := Prod.mk.inj (Option.some.inj h)
        exact List.Perm.refl _
      · exact List.Perm.trans (ih h) (listSwap_perm s.heap t q)

theorem siftGo_map_fst {f : PriorityMap P K V → Nat → Option Nat} :
    ∀ {fuel : Nat} {s : PriorityMap P K V} {q : Nat}
      {s' : PriorityMap P K V} {q' : Nat},
      MapKeysPerm s → siftGo f fuel s q = some (s', q') →
      s'.map.map Prod.fst = s.map.map Prod.fst := by
  intro fuel
  induction fuel with
  | zero => intro s q s' q' _ h; exact absurd h (by simp [siftGo])
  | succ fuel ih =>
    intro s q s' q' hmk h
    unfold siftGo at h
    rcases hf : f s q with _ | t <;> rw [hf] at h <;> simp only [] at h
    · obtain ⟨rfl, rfl⟩ := Prod.mk.inj (Option.some.inj h)
      rfl
    · rcases hoe : s.heap.get? t with _ | oe <;> rw [hoe] at h <;> simp only [] at h
      · obtain ⟨rfl, rfl⟩ := Prod.mk.inj (Option.some.inj h)
        rfl
      · have hmem : oe.key ∈ s.map.map Prod.fst := by
          refine hmk.mem_iff.mpr ?_
          exact List.mem_map_of_mem Entry.key (List.get?_mem hoe)
        have hfst : (mapInsert s.map oe.key q).map Prod.fst = s.map.map Prod.fst :=
          mapInsert_fst_of_mem q hmem
        have hmk1 : MapKeysPerm
            ⟨listSwap s.heap t q, mapInsert s.map oe.key q⟩ := by
          unfold MapKeysPerm
          simp only [hfst]
          exact hmk.trans ((listSwap_perm s.heap t q).map Entry.key).symm
        rw [ih hmk1 h, hfst]

theorem siftGo_mapKeysPerm {f : PriorityMap P K V → Nat → Option Nat}
    {fuel : Nat} {s : PriorityMap P K V} {q : Nat}
    {s' : PriorityMap P K V} {q' : Nat}
    (hmk : MapKeysPerm s) (h : siftGo f fuel s q = some (s', q')) :
    MapKeysPerm s' := by
  unfold MapKeysPerm
  rw [siftGo_map_fst hmk h]
  exact hmk.trans ((siftGo_heap_perm h).map Entry.key).symm

/-! ## Termination of the sift loop -/

theorem siftGo_swim_isSome (cmp : P → P → Option Ordering) :
    ∀ (fuel : Nat) (s : PriorityMap P K V) (q : Nat), q < fuel →
      (siftGo (lesser_parent cmp) fuel s q).isSome = true := by
  intro fuel
  induction fuel with
  | zero => intro s q h; omega
  | succ fuel ih =>
    intro s q hq
    unfold siftGo
    rcases hf : lesser_parent cmp s q with _ | t
    · rfl
    · obtain ⟨ht, hq0, htq, pe, ce, hpe, hce, hlt⟩ := lesser_parent_some hf
      simp only []
      rw [hpe]
      simp only []
      exact ih _ t (by omega)

theorem siftGo_sink_isSome (cmp : P → P → Option Ordering) :
    ∀ (fuel : Nat) (s : PriorityMap P K V) (q : Nat), q < s.heap.length →
      s.heap.length ≤ q + fuel →
      (siftGo (greater_child cmp) fuel s q).isSome = true := by
  intro fuel
  induction fuel with
  | zero => intro s q h1 h2; omega
  | succ fuel ih =>
    intro s q hq hfuel
    unfold siftGo
    rcases hf : greater_child cmp s q with _ | t
    · rfl
    · obtain ⟨hmc, hqt, htl, ce, pe, hce, hpe, hgt⟩ := greater_child_some hf
      simp only []
      rw [hce]
      simp only []
      refine ih _ t ?_ ?_
      · simpa [listSwap_length] using htl
      · simp only [listSwap_length]
        omega

/-! ## Inversion helpers for the sift steps -/

theorem lesser_parent_none_inv {cmp : P → P → Option Ordering}
    {s : PriorityMap P K V} {q : Nat} (hq : q ≠ 0) (hql : q < s.heap.length)
    (h : lesser_parent cmp s q = none) :
    ∃ pe ce, s.heap.get? ((q - 1) / 2) = some pe ∧ s.heap.get? q = some ce ∧
      ¬ cmp pe.priority ce.priority = some Ordering.lt := by
  obtain ⟨pe, hpe⟩ : ∃ pe, s.heap.get? ((q - 1) / 2) = some pe :=
    ⟨_, List.get?_eq_get (by omega)⟩
  obtain ⟨ce, hce⟩ : ∃ ce, s.heap.get? q = some ce := ⟨_, List.get?_eq_get hql⟩
  refine ⟨pe, ce, hpe, hce, fun hlt => ?_⟩
  have hsome : lesser_parent cmp s q = some ((q - 1) / 2) := by
    unfold lesser_parent
    rw [if_neg hq]
    simp only []
    rw [hpe, hce]
    simp only []
    rw [if_pos hlt]
  rw [hsome] at h
  exact Option.noConfusion h

theorem greater_child_none_inv {cmp : P → P → Option Ordering}
    {s : PriorityMap P K V} {q m : Nat} (hq : q < s.heap.length)
    (hmc : max_child cmp s q = some m) (h : greater_child cmp s q = none) :
    ∃ me qe, s.heap.get? m = some me ∧ s.heap.get? q = some qe ∧
      ¬ cmp me.priority qe.priority = some Ordering.gt := by
  obtain ⟨hcase, hmlt⟩ := max_child_some hmc
  obtain ⟨me, hme⟩ : ∃ me, s.heap.get? m = some me := ⟨_, List.get?_eq_get hmlt⟩
  obtain ⟨qe, hqe⟩ : ∃ qe, s.heap.get? q = some qe := ⟨_, List.get?_eq_get hq⟩
  refine ⟨me, qe, hme, hqe, fun hgt => ?_⟩
  rw [greater_child_eq_some hmc hme hqe hgt] at h
  exact Option.noConfusion h

theorem max_child_isSome {cmp : P → P → Option Ordering}
    {s : PriorityMap P K V} {q : Nat} (h1 : 2 * q + 1 < s.heap.length) :
    ∃ m, max_child cmp s q = some m := by
  by_cases h2 : 2 * q + 2 < s.heap.length
  · obtain ⟨le, hle⟩ : ∃ le, s.heap.get? (2 * q + 1) = some le :=
      ⟨_, List.get?_eq_get h1⟩
    obtain ⟨re, hre⟩ : ∃ re, s.heap.get? (2 * q + 2) = some re :=
      ⟨_, List.get?_eq_get h2⟩
    rw [max_child_both hle hre]
    by_cases hlt : cmp le.priority re.priority = some Ordering.lt
    · exact ⟨2 * q + 2, by rw [if_pos hlt]⟩
    · exact ⟨2 * q + 1, by rw [if_neg hlt]⟩
  · exact ⟨2 * q + 1, max_child_left_only h1 h2⟩

/-- Under the total order, the child picked by `max_child` has the greatest
priority among the present children. -/
theorem max_child_dominates {s : PriorityMap Nat K V} {q m j : Nat}
    {me je : Entry Nat K V} (hmc : max_child natCmp s q = some m)
    (hj : (j - 1) / 2 = q) (hj0 : 0 < j) (hjl : j < s.heap.length)
    (hje : s.heap.get? j = some je) (hme : s.heap.get? m = some me) :
    je.priority ≤ me.priority := by
  obtain ⟨hcase, hml⟩ := max_child_some hmc
  by_cases hjm : j = m
  · subst hjm
    rw [hje] at hme
    rw [Option.some.inj hme]
  · have hj2 : j = 2 * q + 1 ∨ j = 2 * q + 2 := by omega
    have hboth : j = 2 * q + 1 ∧ m = 2 * q + 2 ∨ j = 2 * q + 2 ∧ m = 2 * q + 1 := by
      rcases hj2 with h | h <;> rcases hcase with h' | h' <;> omega
    rcases hboth with ⟨hjl2, hml2⟩ | ⟨hjl2, hml2⟩
    · subst hjl2
      subst hml2
      rw [max_child_both hje hme] at hmc
      by_cases hlt : natCmp je.priority me.priority = some Ordering.lt
      · exact Nat.le_of_lt (natCmp_eq_lt.mp hlt)
      · rw [if_neg hlt] at hmc
        exact absurd (Option.some.inj hmc) (by omega)
    · subst hjl2
      subst hml2
      rw [max_child_both hme hje] at hmc
      by_cases hlt : natCmp me.priority je.priority = some Ordering.lt
      · rw [if_pos hlt] at hmc
        exact absurd (Option.some.inj hmc) (by omega)
      · exact natCmp_ne_lt.mp hlt

/-! ## The sift wrapper: permutation and key bookkeeping -/

theorem sift_heap_perm (f : PriorityMap P K V → Nat → Option Nat)
    (s : PriorityMap P K V) (q : Nat) : (sift f s q).1.heap.Perm s.heap := by
  unfold sift
  rcases h0 : s.heap.get? q with _ | e0
  · exact List.Perm.refl _
  · simp only []
    rcases hgo : siftGo f s.heap.length s q with _ | sp
    · exact List.Perm.refl _
    · obtain ⟨s', p'⟩ := sp
      simp only []
      exact siftGo_heap_perm hgo

theorem sift_heap_length (f : PriorityMap P K V → Nat → Option Nat)
    (s : PriorityMap P K V) (q : Nat) :
    (sift f s q).1.heap.length = s.heap.length :=
  (sift_heap_perm f s q).length_eq

theorem sift_map_fst (f : PriorityMap P K V → Nat → Option Nat)
    (s : PriorityMap P K V) (q : Nat) (hmk : MapKeysPerm s) :
    (sift f s q).1.map.map Prod.fst = s.map.map Prod.fst := by
  unfold sift
  rcases h0 : s.heap.get? q with _ | e0
  · rfl
  simp only []
  rcases hgo : siftGo f s.heap.length s q with _ | sp
  · rfl
  obtain ⟨s', p'⟩ := sp
  simp only []
  have hfst := siftGo_map_fst hmk hgo
  have hkey : e0.key ∈ s'.map.map Prod.fst := by
    rw [hfst]
    exact hmk.mem_iff.mpr (List.mem_map_of_mem Entry.key (List.get?_mem h0))
  rw [mapInsert_fst_of_mem p' hkey, hfst]

theorem sift_mapKeysPerm (f : PriorityMap P K V → Nat → Option Nat)
    (s : PriorityMap P K V) (q : Nat) (hmk : MapKeysPerm s) :
    MapKeysPerm (sift f s q).1 := by
  unfold MapKeysPerm
  rw [sift_map_fst f s q hmk]
  exact hmk.trans ((sift_heap_perm f s q).map Entry.key).symm

/-! ## Correctness of the upward sift under the total order -/

theorem swim_loop : ∀ (fuel : Nat) (s : PriorityMap Nat K V) (q : Nat)
    (s' : PriorityMap Nat K V) (q' : Nat), q < s.heap.length → SwimPre s q →
    siftGo (lesser_parent natCmp) fuel s q = some (s', q') → HeapLe s' := by
  intro fuel
  induction fuel with
  | zero => intro s q s' q' _ _ h; exact absurd h (by simp [siftGo])
  | succ fuel ih =>
    intro s q s' q' hq hpre h
    unfold siftGo at h
    rcases hf : lesser_parent natCmp s q with _ | t <;> rw [hf] at h <;>
      simp only [] at h
    · obtain ⟨rfl, rfl⟩ := Prod.mk.inj (Option.some.inj h)
      by_cases hq0 : q = 0
      · intro j pe ce hj hpe hce
        exact hpre.1 j pe ce hj (by omega) hpe hce
      · obtain ⟨pe0, ce0, hpe0, hce0, hnlt⟩ := lesser_parent_none_inv hq0 hq hf
        intro j pe ce hj hpe hce
        by_cases hjq : j = q
        · subst hjq
          rw [hpe0] at hpe
          rw [hce0] at hce
          rw [← Option.some.inj hpe, ← Option.some.inj hce]
          exact natCmp_ne_lt.mp hnlt
        · exact hpre.1 j pe ce hj hjq hpe hce
    · obtain ⟨ht, hq0, htq, pe, ce, hpe, hce, hlt⟩ := lesser_parent_some hf
      subst ht
      rw [hpe] at h
      simp only [] at h
      have hplt : pe.priority < ce.priority := natCmp_eq_lt.mp hlt
      have htl : (q - 1) / 2 < s.heap.length := by omega
      have hget : ∀ m, (listSwap s.heap ((q - 1) / 2) q).get? m =
          if m = q then s.heap.get? ((q - 1) / 2)
          else if m = (q - 1) / 2 then s.heap.get? q
          else s.heap.get? m := fun m => get?_listSwap htl hq m
      refine ih ⟨listSwap s.heap ((q - 1) / 2) q, mapInsert s.map pe.key q⟩
        ((q - 1) / 2) s' q' (by simp [listSwap_length]; omega) ⟨?_, ?_⟩ h
      · intro j pe1 ce1 hj0 hjt hpe1 hce1
        simp only [] at hpe1 hce1
        rw [hget ((j - 1) / 2)] at hpe1
        rw [hget j] at hce1
        by_cases hjq : j = q
        · subst hjq
          rw [if_pos rfl] at hce1
          rw [if_neg (by omega), if_pos rfl] at hpe1
          rw [hce] at hpe1
          rw [hpe] at hce1
          rw [← Option.some.inj hpe1, ← Option.some.inj hce1]
          exact Nat.le_of_lt hplt
        · rw [if_neg hjq] at hce1
          by_cases hjt2 : j = (q - 1) / 2
          · exact absurd hjt2 hjt
          rw [if_neg hjt2] at hce1
          by_cases hp1q : (j - 1) / 2 = q
          · rw [if_pos hp1q] at hpe1
            rw [hpe] at hpe1
            rw [← Option.some.inj hpe1]
            exact hpre.2 (by omega) j pe ce1 hj0 hp1q hpe hce1
          · rw [if_neg hp1q] at hpe1
            by_cases hp1t : (j - 1) / 2 = (q - 1) / 2
            · rw [if_pos hp1t] at hpe1
              rw [hce] at hpe1
              rw [← Option.some.inj hpe1]
              have h1 : ce1.priority ≤ pe.priority :=
                hpre.1 j pe ce1 hj0 hjq (by rw [hp1t]; exact hpe) hce1
              exact Nat.le_trans h1 (Nat.le_of_lt hplt)
            · rw [if_neg hp1t] at hpe1
              exact hpre.1 j pe1 ce1 hj0 hjq hpe1 hce1
      · intro ht0 c ge ce1 hc0 hcp hge hce1
        simp only [] at hge hce1
        rw [hget (((q - 1) / 2 - 1) / 2)] at hge
        rw [hget c] at hce1
        rw [if_neg (by omega), if_neg (by omega)] at hge
        by_cases hcq : c = q
        · rw [if_pos hcq] at hce1
          rw [hpe] at hce1
          rw [← Option.some.inj hce1]
          exact hpre.1 ((q - 1) / 2) ge pe ht0 (by omega) hge hpe
        · rw [if_neg hcq, if_neg (by omega)] at hce1
          have h1 : ce1.priority ≤ pe.priority :=
            hpre.1 c pe ce1 hc0 hcq (by rw [hcp]; exact hpe) hce1
          have h2 : pe.priority ≤ ge.priority :=
            hpre.1 ((q - 1) / 2) ge pe ht0 (by omega) hge hpe
          exact Nat.le_trans h1 h2

theorem swim_up_heapLe {s : PriorityMap Nat K V} {q : Nat}
    (hq : q < s.heap.length) (hpre : SwimPre s q) :
    HeapLe (swim_up natCmp s q).1 := by
  obtain ⟨e0, h0⟩ : ∃ e0, s.heap.get? q = some e0 := ⟨_, List.get?_eq_get hq⟩
  unfold swim_up sift
  rw [h0]
  simp only []
  rcases hgo : siftGo (lesser_parent natCmp) s.heap.length s q with _ | sp
  · have hsome := siftGo_swim_isSome natCmp s.heap.length s q hq
    rw [hgo] at hsome
    exact absurd hsome (by simp)
  · obtain ⟨s', p'⟩ := sp
    simp only []
    exact swim_loop s.heap.length s q s' p' hq hpre hgo

/-! ## Correctness of the downward sift under the total order -/

theorem sink_loop : ∀ (fuel : Nat) (s : PriorityMap Nat K V) (q : Nat)
    (s' : PriorityMap Nat K V) (q' : Nat), q < s.heap.length → SinkPre s q →
    siftGo (greater_child natCmp) fuel s q = some (s', q') → HeapLe s' := by
  intro fuel
  induction fuel with
  | zero => intro s q s' q' _ _ h; exact absurd h (by simp [siftGo])
  | succ fuel ih =>
    intro s q s' q' hq hpre h
    unfold siftGo at h
    rcases hf : greater_child natCmp s q with _ | t <;> rw [hf] at h <;>
      simp only [] at h
    · obtain ⟨rfl, rfl⟩ := Prod.mk.inj (Option.some.inj h)
      intro j pe ce hj hpe hce
      by_cases hpq : (j - 1) / 2 = q
      · obtain ⟨hjl, -⟩ := List.get?_eq_some.mp hce
        have hl1 : 2 * q + 1 < s.heap.length := by omega
        obtain ⟨m, hmc⟩ := max_child_isSome hl1
        obtain ⟨me, qe, hme, hqe, hng⟩ := greater_child_none_inv hq hmc hf
        rw [hpq] at hpe
        rw [hqe] at hpe
        have hpeq : qe.priority = pe.priority := by
          rw [Option.some.inj hpe]
        have hmq : me.priority ≤ qe.priority := by
          have hnlt : ¬ qe.priority < me.priority :=
            fun hlt => hng (natCmp_eq_gt.mpr hlt)
          omega
        have hjm : ce.priority ≤ me.priority :=
          max_child_dominates hmc hpq hj hjl hce hme
        omega
      · exact hpre.1 j pe ce hj hpq hpe hce
    · obtain ⟨hmc, hqt, htl, te, qe, hte, hqe, hgt⟩ := greater_child_some hf
      rw [hte] at h
      simp only [] at h
      have hqlt : qe.priority < te.priority := natCmp_eq_gt.mp hgt
      obtain ⟨hcase, -⟩ := max_child_some hmc
      have htp : (t - 1) / 2 = q := by omega
      have hget : ∀ m, (listSwap s.heap t q).get? m =
          if m = q then s.heap.get? t else if m = t then s.heap.get? q
          else s.heap.get? m := fun m => get?_listSwap htl hq m
      refine ih ⟨listSwap s.heap t q, mapInsert s.map te.key q⟩ t s' q'
        (by simp [listSwap_length]; omega) ⟨?_, ?_⟩ h
      · intro j pe1 ce1 hj0 hpt hpe1 hce1
        simp only [] at hpe1 hce1
        rw [hget ((j - 1) / 2)] at hpe1
        rw [hget j] at hce1
        by_cases hjq : j = q
        · rw [if_pos hjq] at hce1
          rw [hte] at hce1
          rw [if_neg (by omega), if_neg (by omega)] at hpe1
          rw [hjq] at hpe1
          rw [← Option.some.inj hce1]
          exact hpre.2 (by omega) t pe1 te (by omega) htp hpe1 hte
        · by_cases hjt : j = t
          · rw [if_neg hjq, if_pos hjt] at hce1
            rw [hqe] at hce1
            rw [if_pos (by omega)] at hpe1
            rw [hte] at hpe1
            rw [← Option.some.inj hce1, ← Option.some.inj hpe1]
            exact Nat.le_of_lt hqlt
          · rw [if_neg hjq, if_neg hjt] at hce1
            by_cases hp1q : (j - 1) / 2 = q
            · rw [if_pos hp1q] at hpe1
              rw [hte] at hpe1
              obtain ⟨hjl, -⟩ := List.get?_eq_some.mp hce1
              rw [← Option.some.inj hpe1]
              exact max_child_dominates hmc hp1q hj0 hjl hce1 hte
            · rw [if_neg hp1q, if_neg hpt] at hpe1
              exact hpre.1 j pe1 ce1 hj0 hp1q hpe1 hce1
      · intro ht0 c ge ce1 hc0 hcp hge hce1
        simp only [] at hge hce1
        rw [hget ((t - 1) / 2)] at hge
        rw [if_pos htp] at hge
        rw [hte] at hge
        rw [hget c] at hce1
        rw [if_neg (by omega), if_neg (by omega)] at hce1
        rw [← Option.some.inj hge]
        exact hpre.1 c te ce1 hc0 (by omega) (by rw [hcp]; exact hte) hce1

theorem sink_down_heapLe {s : PriorityMap Nat K V} {q : Nat}
    (hq : q < s.heap.length) (hpre : SinkPre s q) :
    HeapLe (sink_down natCmp s q).1 := by
  obtain ⟨e0, h0⟩ : ∃ e0, s.heap.get? q = some e0 := ⟨_, List.get?_eq_get hq⟩
  unfold sink_down sift
  rw [h0]
  simp only []
  rcases hgo : siftGo (greater_child natCmp) s.heap.length s q with _ | sp
  · have hsome := siftGo_sink_isSome natCmp s.heap.length s q hq (by omega)
    rw [hgo] at hsome
    exact absurd hsome (by simp)
  · obtain ⟨s', p'⟩ := sp
    simp only []
    exact sink_loop s.heap.length s q s' p' hq hpre hgo

/-! ## Operation-level correctness under the total order -/

theorem root_max {s : PriorityMap Nat K V} {r : Entry Nat K V}
    (hord : HeapLe s) (h0 : s.heap.get? 0 = some r) :
    ∀ i e, s.heap.get? i = some e → e.priority ≤ r.priority := by
  intro i
  induction i using Nat.strong_induction_on with
  | _ i ih =>
    intro e he
    rcases Nat.eq_zero_or_pos i with hi | hi
    · subst hi
      rw [h0] at he
      rw [← Option.some.inj he]
    · obtain ⟨hil, -⟩ := List.get?_eq_some.mp he
      obtain ⟨pe, hpe⟩ : ∃ pe, s.heap.get? ((i - 1) / 2) = some pe :=
        ⟨_, List.get?_eq_get (by omega)⟩
      have h1 : e.priority ≤ pe.priority := hord i pe e hi hpe he
      have h2 : pe.priority ≤ r.priority := ih ((i - 1) / 2) (by omega) pe hpe
      omega

theorem root_eq_head {s : PriorityMap Nat K V} {r e : Entry Nat K V}
    {rest : List (Entry Nat K V)} (hord : HeapLe s) (h0 : s.heap.get? 0 = some r)
    (hperm : s.heap.Perm (e :: rest))
    (hdesc : ∀ x ∈ rest, x.priority < e.priority) : r = e := by
  have hrmem : r ∈ e :: rest := hperm.mem_iff.mp (List.get?_mem h0)
  rcases List.mem_cons.mp hrmem with h | h
  · exact h
  · exfalso
    have hemem : e ∈ s.heap := hperm.mem_iff.mpr (List.mem_cons_self e rest)
    obtain ⟨i, hi⟩ := List.mem_iff_get?.mp hemem
    have h1 : e.priority ≤ r.priority := root_max hord h0 i e hi
    have h2 : r.priority < e.priority := hdesc r h
    omega

theorem insert_vacant_spec {s : PriorityMap Nat K V} (p : Nat) (k : K) (v : V)
    (hk : mapLookup s.map k = none) (hord : HeapLe s) (hmk : MapKeysPerm s) :
    HeapLe (PriorityMap.insert natCmp s p k v) ∧ MapKeysPerm (PriorityMap.insert natCmp s p k v) ∧
      (PriorityMap.insert natCmp s p k v).heap.Perm (⟨p, k, v⟩ :: s.heap) := by
  unfold PriorityMap.insert
  rw [hk]
  simp only []
  have hpre : SwimPre
      ⟨s.heap ++ [⟨p, k, v⟩], mapInsert s.map k s.heap.length⟩ s.heap.length := by
    constructor
    · intro j pe ce hj0 hjq hpe hce
      simp only [] at hpe hce
      obtain ⟨hjb, -⟩ := List.get?_eq_some.mp hce
      simp only [List.length_append, List.length_cons, List.length_nil] at hjb
      have hjlt : j < s.heap.length := by omega
      rw [List.get?_append hjlt] at hce
      rw [List.get?_append (by omega)] at hpe
      exact hord j pe ce hj0 hpe hce
    · intro hq0 c ge ce hc0 hcp hge hce
      simp only [] at hce
      obtain ⟨hcb, -⟩ := List.get?_eq_some.mp hce
      simp only [List.length_append, List.length_cons, List.length_nil] at hcb
      omega
  have hmk0 : MapKeysPerm
      ⟨s.heap ++ [⟨p, k, v⟩], mapInsert s.map k s.heap.length⟩ := by
    unfold MapKeysPerm
    simp only []
    rw [mapInsert_fst_of_not_mem s.heap.length (mapLookup_eq_none_iff.mp hk)]
    rw [List.map_append]
    exact hmk.append_right _
  refine ⟨?_, ?_, ?_⟩
  · exact swim_up_heapLe (by simp) hpre
  · exact sift_mapKeysPerm _ _ _ hmk0
  · refine List.Perm.trans (sift_heap_perm _ _ _) ?_
    simp only []
    exact List.perm_append_singleton _ _

theorem pop_spec {s : PriorityMap Nat K V} {e : Entry Nat K V}
    (h0 : s.heap.get? 0 = some e) (hord : HeapLe s) (hmk : MapKeysPerm s) :
    (pop natCmp s).2 = some e.value ∧ HeapLe (pop natCmp s).1 ∧
      MapKeysPerm (pop natCmp s).1 ∧ (e :: (pop natCmp s).1.heap).Perm s.heap := by
  have hsnd := swapRemove_snd h0
  have hperm0 : (e :: (swapRemove s.heap 0).1).Perm s.heap := swapRemove_perm h0
  have hlen0 : 0 < s.heap.length := by
    obtain ⟨h, -⟩ := List.get?_eq_some.mp h0
    exact h
  have hswlen : (swapRemove s.heap 0).1.length = s.heap.length - 1 :=
    swapRemove_fst_length hlen0
  obtain ⟨x, t, hh⟩ : ∃ x t, s.heap = x :: t := by
    rcases hs : s.heap with _ | ⟨x, t⟩
    · rw [hs] at h0
      exact absurd h0 (by simp)
    · exact ⟨x, t, rfl⟩
  have hpop : pop natCmp s =
      (if ((swapRemove s.heap 0).1).isEmpty = true then
         (⟨(swapRemove s.heap 0).1, mapRemove s.map e.key⟩ : PriorityMap Nat K V)
       else
         (sink_down natCmp
           ⟨(swapRemove s.heap 0).1, mapRemove s.map e.key⟩ 0).1,
       some e.value) := by
    unfold pop
    rw [hh]
    simp only []
    rcases hsw : swapRemove (x :: t) 0 with ⟨heap2, oe⟩
    have hoe : oe = some e := by
      rw [hh, hsw] at hsnd
      exact hsnd
    subst hoe
    simp only []
    by_cases hemp : heap2.isEmpty = true
    · rw [if_pos hemp, if_pos hemp]
    · rw [if_neg hemp, if_neg hemp]
  have hmk1 : MapKeysPerm
      ⟨(swapRemove s.heap 0).1, mapRemove s.map e.key⟩ := by
    unfold MapKeysPerm
    simp only []
    rw [mapRemove_fst]
    have h1 : (s.map.map Prod.fst).Perm
        (e.key :: ((swapRemove s.heap 0).1.map Entry.key)) := by
      refine hmk.trans ?_
      have h2 := (hperm0.map Entry.key).symm
      simpa using h2
    refine (h1.erase e.key).trans ?_
    rw [List.erase_cons_head]
  rw [hpop]
  by_cases hemp : ((swapRemove s.heap 0).1).isEmpty = true
  · rw [if_pos hemp]
    refine ⟨rfl, ?_, hmk1, hperm0⟩
    intro j pe ce hj hpe hce
    simp only [] at hce
    rw [List.isEmpty_iff] at hemp
    rw [hemp] at hce
    exact absurd hce (by simp)
  · rw [if_neg hemp]
    have hne2 : (swapRemove s.heap 0).1 ≠ [] := by
      intro hnil
      rw [hnil] at hemp
      exact hemp rfl
    have hlen1 : 0 < (swapRemove s.heap 0).1.length := List.length_pos.mpr hne2
    refine ⟨rfl, ?_, sift_mapKeysPerm _ _ _ hmk1, ?_⟩
    · apply sink_down_heapLe hlen1
      constructor
      · intro j pe ce hj hpq hpe hce
        simp only [] at hpe hce
        obtain ⟨hjb, -⟩ := List.get?_eq_some.mp hce
        rw [get?_swapRemove hlen0 j (by omega) (by omega)] at hce
        rw [get?_swapRemove hlen0 ((j - 1) / 2) (by omega) (by omega)] at hpe
        exact hord j pe ce hj hpe hce
      · intro h0q
        exact absurd h0q (by omega)
    · refine List.Perm.trans ?_ hperm0
      exact (sift_heap_perm _ _ _).cons e

theorem popRun_spec : ∀ (expected : List (Entry Nat K V)) (s : PriorityMap Nat K V),
    HeapLe s → MapKeysPerm s → s.heap.Perm expected →
    List.Pairwise (fun a b => b.priority < a.priority) expected →
    popList natCmp expected.length s = expected.map Entry.value ∧
      popState natCmp expected.length s = new := by
  intro expected
  induction expected with
  | nil =>
    intro s hord hmk hperm hpair
    have hheap : s.heap = [] := hperm.eq_nil
    have hmap : s.map = [] := by
      have h1 : (s.map.map Prod.fst).Perm ([] : List K) := by
        refine hmk.trans ?_
        rw [hheap]
        exact List.Perm.refl _
      exact List.map_eq_nil.mp h1.eq_nil
    refine ⟨rfl, ?_⟩
    show s = new
    cases s with
    | mk h m =>
      rw [show h = [] from hheap, show m = [] from hmap]
      rfl
  | cons e rest ih =>
    intro s hord hmk hperm hpair
    have hlen : s.heap.length = rest.length + 1 := by
      rw [hperm.length_eq]
      simp
    obtain ⟨r, h0⟩ : ∃ r, s.heap.get? 0 = some r := ⟨_, List.get?_eq_get (by omega)⟩
    obtain ⟨hdesc, hpair2⟩ := List.pairwise_cons.mp hpair
    have hre : r = e := root_eq_head hord h0 hperm hdesc
    rw [hre] at h0
    obtain ⟨hpop2, hord1, hmk1, hpermpop⟩ := pop_spec h0 hord hmk
    have hperm1 : (pop natCmp s).1.heap.Perm rest :=
      (hpermpop.trans hperm).cons_inv
    have hp : pop natCmp s = ((pop natCmp s).1, some e.value) := by
      rw [← hpop2]
    obtain ⟨ihl, ihs⟩ := ih (pop natCmp s).1 hord1 hmk1 hperm1 hpair2
    constructor
    · show popList natCmp (rest.length + 1) s = e.value :: rest.map Entry.value
      unfold popList
      rw [hp]
      simp only []
      rw [ihl]
    · show popState natCmp (rest.length + 1) s = new
      unfold popState
      rw [hp]
      simp only []
      exact ihs

theorem runInserts_go :
    ∀ (l : List (Nat × Char × Nat)) (s : PriorityMap Nat Char Nat),
    HeapLe s → MapKeysPerm s →
    (∀ x ∈ l, ∀ e ∈ s.heap, e.key ≠ x.2.1) →
    (l.map fun x => x.2.1).Nodup →
    HeapLe (l.foldl (fun s x => PriorityMap.insert natCmp s x.1 x.2.1 x.2.2) s) ∧
      MapKeysPerm (l.foldl (fun s x => PriorityMap.insert natCmp s x.1 x.2.1 x.2.2) s) ∧
      (l.foldl (fun s x => PriorityMap.insert natCmp s x.1 x.2.1 x.2.2) s).heap.Perm
        (s.heap ++ l.map toEntry) := by
  intro l
  induction l with
  | nil =>
    intro s hord hmk _ _
    exact ⟨hord, hmk, by simp⟩
  | cons x l ih =>
    intro s hord hmk hfresh hnodup
    have hnodup2 : (x.2.1 :: l.map fun y => y.2.1).Nodup := by simpa using hnodup
    obtain ⟨hxn, hnodup1⟩ := List.nodup_cons.mp hnodup2
    have hk : mapLookup s.map x.2.1 = none := by
      rw [mapLookup_eq_none_iff]
      intro hmem
      have h1 : x.2.1 ∈ s.heap.map Entry.key := hmk.mem_iff.mp hmem
      obtain ⟨e, he, hek⟩ := List.mem_map.mp h1
      exact hfresh x (List.mem_cons_self x l) e he hek
    obtain ⟨hord1, hmk1, hperm1⟩ := insert_vacant_spec x.1 x.2.1 x.2.2 hk hord hmk
    have hfresh1 : ∀ y ∈ l,
        ∀ e ∈ (PriorityMap.insert natCmp s x.1 x.2.1 x.2.2).heap, e.key ≠ y.2.1 := by
      intro y hy e he hkey
      have hmem : e ∈ (⟨x.1, x.2.1, x.2.2⟩ : Entry Nat Char Nat) :: s.heap :=
        hperm1.mem_iff.mp he
      rcases List.mem_cons.mp hmem with h | h
      · rw [h] at hkey
        simp only [] at hkey
        rw [hkey] at hxn
        exact hxn (List.mem_map_of_mem (fun y => y.2.1) hy)
      · exact hfresh y (List.mem_cons_of_mem x hy) e h hkey
    obtain ⟨ihord, ihmk, ihperm⟩ :=
      ih (PriorityMap.insert natCmp s x.1 x.2.1 x.2.2) hord1 hmk1 hfresh1 hnodup1
    refine ⟨ihord, ihmk, ?_⟩
    show (l.foldl (fun s x => PriorityMap.insert natCmp s x.1 x.2.1 x.2.2)
        (PriorityMap.insert natCmp s x.1 x.2.1 x.2.2)).heap.Perm
      (s.heap ++ (toEntry x :: l.map toEntry))
    refine ihperm.trans ?_
    refine List.Perm.trans (hperm1.append_right (l.map toEntry)) ?_
    exact List.perm_middle.symm

/-! ## Map-length preservation and key counting -/

theorem mem_fst_mapInsert {m : List (K × Nat)} {k k' : K} (v : Nat)
    (h : k' ∈ m.map Prod.fst) : k' ∈ (mapInsert m k v).map Prod.fst := by
  by_cases hk : k ∈ m.map Prod.fst
  · rw [mapInsert_fst_of_mem v hk]
    exact h
  · rw [mapInsert_fst_of_not_mem v hk]
    exact List.mem_append_left _ h

theorem siftGo_map_length {f : PriorityMap P K V → Nat → Option Nat} :
    ∀ {fuel : Nat} {s : PriorityMap P K V} {q : Nat}
      {s' : PriorityMap P K V} {q' : Nat},
      keys_covered s → siftGo f fuel s q = some (s', q') →
      s'.map.length = s.map.length ∧ keys_covered s' := by
  intro fuel
  induction fuel with
  | zero => intro s q s' q' _ h; exact absurd h (by simp [siftGo])
  | succ fuel ih =>
    intro s q s' q' hcov h
    unfold siftGo at h
    rcases hf : f s q with _ | t <;> rw [hf] at h <;> simp only [] at h
    · obtain ⟨rfl, rfl⟩ := Prod.mk.inj (Option.some.inj h)
      exact ⟨rfl, hcov⟩
    · rcases hoe : s.heap.get? t with _ | oe <;> rw [hoe] at h <;> simp only [] at h
      · obtain ⟨rfl, rfl⟩ := Prod.mk.inj (Option.some.inj h)
        exact ⟨rfl, hcov⟩
      · have hoemem : oe ∈ s.heap := List.get?_mem hoe
        have hoefst : oe.key ∈ s.map.map Prod.fst :=
          mapLookup_isSome_iff.mp (hcov oe hoemem)
        have hcov1 : keys_covered
            ⟨listSwap s.heap t q, mapInsert s.map oe.key q⟩ := by
          intro e2 he2
          simp only [] at he2
          have he2s : e2 ∈ s.heap := (listSwap_perm s.heap t q).mem_iff.mp he2
          simp only []
          rw [mapLookup_isSome_iff]
          exact mem_fst_mapInsert q (mapLookup_isSome_iff.mp (hcov e2 he2s))
        obtain ⟨hl, hc⟩ := ih hcov1 h
        refine ⟨?_, hc⟩
        rw [hl]
        simp only []
        exact mapInsert_length_of_mem q hoefst

theorem sift_map_length (f : PriorityMap P K V → Nat → Option Nat)
    (s : PriorityMap P K V) (q : Nat) (hcov : keys_covered s) :
    (sift f s q).1.map.length = s.map.length := by
  unfold sift
  rcases h0 : s.heap.get? q with _ | e0
  · rfl
  simp only []
  rcases hgo : siftGo f s.heap.length s q with _ | sp
  · rfl
  obtain ⟨s', p'⟩ := sp
  simp only []
  obtain ⟨hl, hc⟩ := siftGo_map_length hcov hgo
  have he0 : e0 ∈ s'.heap := by
    refine (siftGo_heap_perm hgo).mem_iff.mpr ?_
    exact List.get?_mem h0
  rw [mapInsert_length_of_mem p' (mapLookup_isSome_iff.mp (hc e0 he0)), hl]

theorem countP_key_set_one {l : List (Entry P K V)} {pos : Nat}
    {e newE : Entry P K V} {k : K} (he : l.get? pos = some e) (hek : e.key = k)
    (hnk : newE.key = k) (hnd : (l.map Entry.key).Nodup) :
    (l.set pos newE).countP (fun a => decide (a.key = k)) = 1 := by
  induction l generalizing pos with
  | nil => exact absurd he (by simp)
  | cons x t ih =>
    rw [List.map_cons] at hnd
    obtain ⟨hxn, hnd1⟩ := List.nodup_cons.mp hnd
    cases pos with
    | zero =>
      rw [List.get?_cons_zero] at he
      have hxe : x = e := Option.some.inj he
      have hzero : t.countP (fun a => decide (a.key = k)) = 0 := by
        rw [List.countP_eq_zero]
        intro a ha
        simp only [decide_eq_true_eq]
        intro hak
        refine hxn ?_
        rw [hxe, hek, ← hak]
        exact List.mem_map_of_mem Entry.key ha
      simp [List.countP_cons, hzero, hnk]
    | succ n =>
      rw [List.get?_cons_succ] at he
      have hxk : ¬ x.key = k := by
        intro hxk
        refine hxn ?_
        rw [hxk, ← hek]
        exact List.mem_map_of_mem Entry.key (List.get?_mem he)
      simp [List.countP_cons, hxk, ih he hnd1]

theorem mem_key_set_eq {l : List (Entry P K V)} {pos : Nat}
    {e newE : Entry P K V} {k : K} (he : l.get? pos = some e) (hek : e.key = k)
    (hnd : (l.map Entry.key).Nodup) :
    ∀ a ∈ l.set pos newE, a.key = k → a = newE := by
  induction l generalizing pos with
  | nil => exact absurd he (by simp)
  | cons x t ih =>
    rw [List.map_cons] at hnd
    obtain ⟨hxn, hnd1⟩ := List.nodup_cons.mp hnd
    cases pos with
    | zero =>
      rw [List.get?_cons_zero] at he
      have hxe : x = e := Option.some.inj he
      intro a ha hak
      rw [List.set_cons_zero] at ha
      rcases List.mem_cons.mp ha with h | h
      · exact h
      · exfalso
        refine hxn ?_
        rw [hxe, hek, ← hak]
        exact List.mem_map_of_mem Entry.key h
    | succ n =>
      rw [List.get?_cons_succ] at he
      intro a ha hak
      rw [List.set_cons_succ] at ha
      rcases List.mem_cons.mp ha with h | h
      · exfalso
        refine hxn ?_
        rw [h] at hak
        rw [hak, ← hek]
        exact List.mem_map_of_mem Entry.key (List.get?_mem he)
      · exact ih he hnd1 a h hak

theorem pop_snd (cmp : P → P → Option Ordering) {s : PriorityMap P K V}
    {e : Entry P K V} (h0 : s.heap.get? 0 = some e) :
    (pop cmp s).2 = some e.value := by
  have hsnd := swapRemove_snd h0
  obtain ⟨x, t, hh⟩ : ∃ x t, s.heap = x :: t := by
    rcases hs : s.heap with _ | ⟨x, t⟩
    · rw [hs] at h0
      exact absurd h0 (by simp)
    · exact ⟨x, t, rfl⟩
  unfold pop
  rw [hh]
  simp only []
  rcases hsw : swapRemove (x :: t) 0 with ⟨heap2, oe⟩
  have hoe : oe = some e := by
    rw [hh, hsw] at hsnd
    exact hsnd
  subst hoe
  simp only []
  by_cases hemp : heap2.isEmpty = true
  · rw [if_pos hemp]
  · rw [if_neg hemp]

/-! ## Reachability of the concrete states -/

theorem bugState_reachable : Reachable natCmp bugState := by
  unfold bugState bugBase
  exact Reachable.remove 3 (Reachable.insert 9 6 9 (Reachable.insert 8 5 8
    (Reachable.insert 0 4 0 (Reachable.insert 0 3 0 (Reachable.insert 9 2 9
    (Reachable.insert 1 1 1 (Reachable.insert 10 0 10 Reachable.new)))))))

theorem c10State_reachable : Reachable prodCmp c10State := by
  unfold c10State
  exact Reachable.remove 1 (Reachable.insert (3, 0) 3 3 (Reachable.pop
    (Reachable.insert (1, 1) 100 100 (Reachable.insert (5, 5) 2 2
    (Reachable.insert (0, 10) 1 1 (Reachable.insert (10, 10) 0 0 Reachable.new))))))

/-! ## The claims -/

/-- Claim C1 (code bug): the twin invariant does not survive `remove`. The
state `bugState` is reachable (seven inserts with priorities 10, 1, 9, 0, 0,
8, 9 and then `remove` of key 3), yet the executable twin-invariant check
fails on it: `remove` moves the last entry (priority 9) to position 3, under
the priority-1 parent at position 1, and only sinks it, never letting it swim
up. -/
theorem c1_remove_breaks_invariant :
    Reachable natCmp bugState ∧ invariant_ok natCmp bugState = false :=
  ⟨bugState_reachable, by decide⟩

/-- Claim C2 (code bug): popping a reachable, totally ordered structure until
empty can emit priorities out of order. After `remove` damages the heap (see
`bugState`), the six pops return values 10, 9, 8, 9, 1, 0 — the fourth pop
returns 9 after an 8, so the sequence is not non-increasing. Values equal
priorities in `bugState` by construction. -/
theorem c2_pop_order_violated :
    Reachable natCmp bugState ∧ popList natCmp 6 bugState = [10, 9, 8, 9, 1, 0] ∧
      ¬ List.Chain' (fun a b => b ≤ a) (popList natCmp 6 bugState) := by
  have hpl : popList natCmp 6 bugState = [10, 9, 8, 9, 1, 0] := by decide
  refine ⟨bugState_reachable, hpl, ?_⟩
  rw [hpl]
  intro hch
  simp only [List.chain'_cons, List.chain'_singleton] at hch
  omega

/-- Claim C3 counterexample: on `c3State` (priorities 5, 3, 4), lowering the
root's priority from 5 to the strictly smaller 1 does not apply `swim_up` as
the claim states; the result coincides with `sink_down` applied at the
position and differs from the swim result. -/
theorem c3_swim_sink_swapped_cex :
    natCmp 1 5 = some Ordering.lt ∧
    mapLookup c3State.map 0 = some 0 ∧
    (c3State.heap.get? 0).map (fun e => e.priority) = some 5 ∧
    (reprioritize natCmp c3State 0 1).1 =
      (sink_down natCmp (set_priority c3State 0 1) 0).1 ∧
    (reprioritize natCmp c3State 0 1).1 ≠
      (swim_up natCmp (set_priority c3State 0 1) 0).1 := by
  refine ⟨by decide, by decide, by decide, by decide, by decide⟩

/-- Claim C3 (amended): `reprioritize_position` applies `swim_up` exactly when
the new priority is strictly greater than the old one, and `sink_down` when
it is strictly lower (and also when the two are incomparable); in each case
the old priority is returned. -/
theorem c3_sift_direction (cmp : P → P → Option Ordering)
    (s : PriorityMap P K V) (pos : Nat) (p : P) (e : Entry P K V)
    (he : s.heap.get? pos = some e) :
    (cmp p e.priority = some Ordering.gt →
      reprioritize_position cmp s pos p =
        ((swim_up cmp (set_priority s pos p) pos).1, some e.priority)) ∧
    (cmp p e.priority = some Ordering.lt →
      reprioritize_position cmp s pos p =
        ((sink_down cmp (set_priority s pos p) pos).1, some e.priority)) ∧
    (cmp p e.priority = none →
      reprioritize_position cmp s pos p =
        ((sink_down cmp (set_priority s pos p) pos).1, some e.priority)) := by
  unfold reprioritize_position
  rw [he]
  simp only []
  refine ⟨fun h => by rw [if_pos h], fun h => by rw [if_neg (by simp [h])],
    fun h => by rw [if_neg (by simp [h])]⟩

theorem c3_sift_direction_w :
    reprioritize_position natCmp c3State 1 7 =
      ((swim_up natCmp (set_priority c3State 1 7) 1).1, some 3) ∧
    reprioritize_position natCmp c3State 0 1 =
      ((sink_down natCmp (set_priority c3State 0 1) 0).1, some 5) := by
  constructor
  · exact (c3_sift_direction natCmp c3State 1 7 ⟨3, 1, 3⟩ (by decide)).1 (by decide)
  · exact (c3_sift_direction natCmp c3State 0 1 ⟨5, 0, 5⟩ (by decide)).2.1 (by decide)

/-- Claim C5: the public operations are total functions of the embedding and
signal missing inputs explicitly: `peek` and `pop` return `none` on an empty
structure, `remove` and `reprioritize` return `none` for an absent key, and
on success `pop` and `remove` return the removed entry's value while
`reprioritize` returns the key's previous priority. -/
theorem c5_totality_signals (cmp : P → P → Option Ordering)
    (s : PriorityMap P K V) (k : K) (p : P) :
    (s.heap = [] → peek s = none) ∧
    (s.heap = [] → (pop cmp s).2 = none) ∧
    (mapLookup s.map k = none → (remove cmp s k).2 = none) ∧
    (mapLookup s.map k = none → (reprioritize cmp s k p).2 = none) ∧
    (∀ e, s.heap.get? 0 = some e → (pop cmp s).2 = some e.value) ∧
    (∀ pos e, mapLookup s.map k = some pos → s.heap.get? pos = some e →
      (remove cmp s k).2 = some e.value) ∧
    (∀ pos e, mapLookup s.map k = some pos → s.heap.get? pos = some e →
      (reprioritize cmp s k p).2 = some e.priority) := by
  refine ⟨?_, ?_, ?_, ?_, ?_, ?_, ?_⟩
  · intro h
    unfold peek
    rw [h]
    rfl
  · intro h
    unfold pop
    rw [h]
  · intro h
    unfold remove
    rw [h]
  · intro h
    unfold reprioritize
    rw [h]
  · intro e h0
    exact pop_snd cmp h0
  · intro pos e hpos he2
    unfold remove
    rw [hpos]
    simp only []
    rcases hsw : swapRemove s.heap pos with ⟨h2, oe⟩
    have hoe : oe = some e := by
      have hx := swapRemove_snd he2
      rw [hsw] at hx
      exact hx
    subst hoe
    simp only []
    by_cases hlt : pos < h2.length
    · rw [if_pos hlt]
    · rw [if_neg hlt]
  · intro pos e hpos he2
    unfold reprioritize
    rw [hpos]
    simp only []
    unfold reprioritize_position
    rw [he2]
    simp only []
    by_cases hgt : cmp p e.priority = some Ordering.gt
    · rw [if_pos hgt]
    · rw [if_neg hgt]

theorem c5_totality_signals_w :
    peek (new : PriorityMap Nat Nat Nat) = none ∧
    (pop natCmp (new : PriorityMap Nat Nat Nat)).2 = none ∧
    (remove natCmp (new : PriorityMap Nat Nat Nat) 7).2 = none ∧
    (reprioritize natCmp (new : PriorityMap Nat Nat Nat) 7 1).2 = none ∧
    (pop natCmp c3State).2 = some 5 ∧
    (remove natCmp c3State 1).2 = some 3 ∧
    (reprioritize natCmp c3State 2 9).2 = some 4 := by
  refine ⟨?_, ?_, ?_, ?_, ?_, ?_, ?_⟩
  · exact (c5_totality_signals natCmp new 7 1).1 rfl
  · exact (c5_totality_signals natCmp new 7 1).2.1 rfl
  · exact (c5_totality_signals natCmp new 7 1).2.2.1 rfl
  · exact (c5_totality_signals natCmp new 7 1).2.2.2.1 rfl
  · exact (c5_totality_signals natCmp c3State 0 1).2.2.2.2.1 ⟨5, 0, 5⟩ (by decide)
  · exact (c5_totality_signals natCmp c3State 1 1).2.2.2.2.2.1 1 ⟨3, 1, 3⟩
      (by decide) (by decide)
  · exact (c5_totality_signals natCmp c3State 2 9).2.2.2.2.2.2 2 ⟨4, 2, 4⟩
      (by decide) (by decide)

/-- Claim C6: when an operation signals empty or not-found, the structure is
returned unchanged: `pop` on an empty structure and `remove`/`reprioritize`
on an absent key return the very input state paired with `none` (`peek` takes
the structure by shared reference and cannot mutate it at all, which the
embedding reflects by typing `peek` as a pure function to `Option V`). -/
theorem c6_noop_on_signal (cmp : P → P → Option Ordering)
    (s : PriorityMap P K V) (k : K) (p : P) :
    (s.heap = [] → pop cmp s = (s, none)) ∧
    (mapLookup s.map k = none → remove cmp s k = (s, none)) ∧
    (mapLookup s.map k = none → reprioritize cmp s k p = (s, none)) := by
  refine ⟨?_, ?_, ?_⟩
  · intro h
    unfold pop
    rw [h]
  · intro h
    unfold remove
    rw [h]
  · intro h
    unfold reprioritize
    rw [h]

theorem c6_noop_on_signal_w :
    pop natCmp (new : PriorityMap Nat Nat Nat) = (new, none) ∧
    remove natCmp c3State 9 = (c3State, none) ∧
    reprioritize natCmp c3State 9 0 = (c3State, none) := by
  refine ⟨?_, ?_, ?_⟩
  · exact (c6_noop_on_signal natCmp new 9 0).1 rfl
  · exact (c6_noop_on_signal natCmp c3State 9 0).2.1 (by decide)
  · exact (c6_noop_on_signal natCmp c3State 9 0).2.2 (by decide)

/-- Claim C9: the sift loop terminates. `lesser_parent` strictly decreases
the position, `greater_child` strictly increases it while keeping it below
the heap length, and with the fuel `heap.length` used by `sift` the loop
always returns a result for both step functions when started in bounds. -/
theorem c9_sift_terminates (cmp : P → P → Option Ordering)
    (s : PriorityMap P K V) (q : Nat) :
    (∀ t, lesser_parent cmp s q = some t → t < q) ∧
    (∀ t, greater_child cmp s q = some t → q < t ∧ t < s.heap.length) ∧
    (q < s.heap.length →
      (siftGo (lesser_parent cmp) s.heap.length s q).isSome = true) ∧
    (q < s.heap.length →
      (siftGo (greater_child cmp) s.heap.length s q).isSome = true) := by
  refine ⟨?_, ?_, ?_, ?_⟩
  · intro t h
    exact (lesser_parent_some h).2.2.1
  · intro t h
    obtain ⟨-, hqt, htl, -⟩ := greater_child_some h
    exact ⟨hqt, htl⟩
  · intro hq
    exact siftGo_swim_isSome cmp s.heap.length s q hq
  · intro hq
    exact siftGo_sink_isSome cmp s.heap.length s q hq (by omega)

theorem c9_sift_terminates_w :
    (siftGo (lesser_parent natCmp) c3State.heap.length c3State 2).isSome = true ∧
    (siftGo (greater_child natCmp) c3State.heap.length c3State 0).isSome = true := by
  constructor
  · exact (c9_sift_terminates natCmp c3State 2).2.2.1 (by decide)
  · exact (c9_sift_terminates natCmp c3State 0).2.2.2 (by decide)

/-- Claim C4: `insert` on a present key is an upsert. With the index map
binding `k` to its heap position, the upserting insert leaves exactly one
entry for `k`, that entry carries the new priority and value, and the
structure's length is unchanged. -/
theorem c4_insert_upsert (cmp : P → P → Option Ordering) (s : PriorityMap P K V)
    (p2 : P) (k : K) (v2 : V) (pos : Nat) (e : Entry P K V)
    (hk : mapLookup s.map k = some pos) (he : s.heap.get? pos = some e)
    (hkey : e.key = k) (hcov : keys_covered s) (hnd : keys_nodup s) :
    key_count (PriorityMap.insert cmp s p2 k v2) k = 1 ∧
    (∀ e2 ∈ (PriorityMap.insert cmp s p2 k v2).heap, e2.key = k →
      e2.priority = p2 ∧ e2.value = v2) ∧
    len (PriorityMap.insert cmp s p2 k v2) = len s := by
  have hpos : pos < s.heap.length := by
    obtain ⟨h, -⟩ := List.get?_eq_some.mp he
    exact h
  have hset1 : (s.heap.set pos ⟨e.priority, e.key, v2⟩).get? pos =
      some ⟨e.priority, e.key, v2⟩ := List.get?_set_eq_of_lt _ hpos
  have hinsert : PriorityMap.insert cmp s p2 k v2 =
      if cmp p2 e.priority = some Ordering.gt then
        (swim_up cmp ⟨s.heap.set pos ⟨p2, e.key, v2⟩, s.map⟩ pos).1
      else (sink_down cmp ⟨s.heap.set pos ⟨p2, e.key, v2⟩, s.map⟩ pos).1 := by
    unfold PriorityMap.insert
    rw [hk]
    simp only []
    rw [he]
    simp only []
    unfold reprioritize_position
    rw [hset1]
    simp only []
    unfold set_priority
    rw [hset1]
    simp only [List.set_set]
    by_cases hgt : cmp p2 e.priority = some Ordering.gt
    · rw [if_pos hgt, if_pos hgt]
    · rw [if_neg hgt, if_neg hgt]
  have hmain : ∀ f : PriorityMap P K V → Nat → Option Nat,
      key_count
        (sift f (⟨s.heap.set pos ⟨p2, e.key, v2⟩, s.map⟩ : PriorityMap P K V) pos).1
        k = 1 ∧
      (∀ e2 ∈ (sift f
          (⟨s.heap.set pos ⟨p2, e.key, v2⟩, s.map⟩ : PriorityMap P K V) pos).1.heap,
        e2.key = k → e2.priority = p2 ∧ e2.value = v2) ∧
      (sift f (⟨s.heap.set pos ⟨p2, e.key, v2⟩, s.map⟩ : PriorityMap P K V)
          pos).1.map.length = s.map.length := by
    intro f
    have hperm := sift_heap_perm f ⟨s.heap.set pos ⟨p2, e.key, v2⟩, s.map⟩ pos
    have hcov2 : keys_covered
        (⟨s.heap.set pos ⟨p2, e.key, v2⟩, s.map⟩ : PriorityMap P K V) := by
      intro e2 he2
      simp only [] at he2
      rcases List.mem_or_eq_of_mem_set he2 with h | h
      · exact hcov e2 h
      · rw [h]
        exact hcov e (List.get?_mem he)
    refine ⟨?_, ?_, ?_⟩
    · unfold key_count
      rw [hperm.countP_eq]
      simp only []
      exact countP_key_set_one he hkey hkey hnd
    · intro e2 he2 hk2
      have hmem : e2 ∈ s.heap.set pos ⟨p2, e.key, v2⟩ := hperm.mem_iff.mp he2
      have heq := mem_key_set_eq he hkey hnd e2 hmem hk2
      rw [heq]
      exact ⟨rfl, rfl⟩
    · exact sift_map_length f _ pos hcov2
  rw [hinsert]
  by_cases hgt : cmp p2 e.priority = some Ordering.gt
  · rw [if_pos hgt]
    exact hmain (lesser_parent cmp)
  · rw [if_neg hgt]
    exact hmain (greater_child cmp)

theorem c4_insert_upsert_w :
    key_count (PriorityMap.insert natCmp c3State 10 1 99) 1 = 1 ∧
    len (PriorityMap.insert natCmp c3State 10 1 99) = len c3State := by
  have h := c4_insert_upsert natCmp c3State 10 1 99 1 ⟨3, 1, 3⟩ (by decide)
    (by decide) (by decide) (by unfold keys_covered; decide)
    (by unfold keys_nodup; decide)
  exact ⟨h.1, h.2.2⟩

/-- Claim C7: with both children present, `max_child` selects the right child
exactly when its priority is strictly greater than the left child's (via the
code's `left < right` test and the symmetry of `partial_cmp`), otherwise the
left child; and `greater_child` — the swap candidate of the sink step —
returns the selected child exactly when that child's priority is strictly
greater than the entry's own. -/
theorem c7_child_selection (cmp : P → P → Option Ordering)
    (hsymm : ∀ a b : P, cmp a b = some Ordering.lt ↔ cmp b a = some Ordering.gt)
    (s : PriorityMap P K V) (pos : Nat) (le re pe : Entry P K V)
    (hle : s.heap.get? (2 * pos + 1) = some le)
    (hre : s.heap.get? (2 * pos + 2) = some re)
    (hpe : s.heap.get? pos = some pe) :
    (max_child cmp s pos = some (2 * pos + 2) ↔
      cmp re.priority le.priority = some Ordering.gt) ∧
    (max_child cmp s pos = some (2 * pos + 1) ↔
      ¬ cmp re.priority le.priority = some Ordering.gt) ∧
    (∀ t, greater_child cmp s pos = some t → max_child cmp s pos = some t ∧
      ∃ ce, s.heap.get? t = some ce ∧
        cmp ce.priority pe.priority = some Ordering.gt) ∧
    (∀ t ce, max_child cmp s pos = some t → s.heap.get? t = some ce →
      cmp ce.priority pe.priority = some Ordering.gt →
      greater_child cmp s pos = some t) := by
  have hmb : max_child cmp s pos =
      if cmp le.priority re.priority = some Ordering.lt then some (2 * pos + 2)
      else some (2 * pos + 1) := max_child_both hle hre
  have hiff : cmp le.priority re.priority = some Ordering.lt ↔
      cmp re.priority le.priority = some Ordering.gt :=
    hsymm le.priority re.priority
  refine ⟨?_, ?_, ?_, ?_⟩
  · rw [hmb, ← hiff]
    by_cases hc : cmp le.priority re.priority = some Ordering.lt
    · rw [if_pos hc]
      simp [hc]
    · rw [if_neg hc]
      constructor
      · intro hsome
        exact absurd (Option.some.inj hsome) (by omega)
      · intro hx
        exact absurd hx hc
  · rw [hmb, ← hiff]
    by_cases hc : cmp le.priority re.priority = some Ordering.lt
    · rw [if_pos hc]
      constructor
      · intro hsome
        exact absurd (Option.some.inj hsome) (by omega)
      · intro hx
        exact absurd hc hx
    · rw [if_neg hc]
      simp [hc]
  · intro t hg
    obtain ⟨hmc, -, -, ce, pe2, hce, hpe2, hgt2⟩ := greater_child_some hg
    rw [hpe] at hpe2
    refine ⟨hmc, ce, hce, ?_⟩
    rw [Option.some.inj hpe2]
    exact hgt2
  · intro t ce hmc hce hgt2
    exact greater_child_eq_some hmc hce hpe hgt2

theorem c7_child_selection_w :
    max_child natCmp c3State 0 = some 2 ∧ greater_child natCmp c3State 0 = none := by
  have h := c7_child_selection natCmp (fun a b => natCmp_symm) c3State 0
    ⟨3, 1, 3⟩ ⟨4, 2, 4⟩ ⟨5, 0, 5⟩ (by decide) (by decide) (by decide)
  refine ⟨h.1.mpr (by decide), ?_⟩
  rcases hg : greater_child natCmp c3State 0 with _ | t
  · rfl
  · obtain ⟨hmc, hex⟩ := h.2.2.1 t hg
    obtain ⟨ce, hce, hgt⟩ := hex
    have ht : t = 2 := by
      have h2 := h.1
      rcases hm2 : max_child natCmp c3State 0 with _ | u
      · rw [hm2] at hmc
        exact absurd hmc (by simp)
      · rw [hm2] at hmc h2
        have hu : u = 2 := by
          have := h2.mpr (by decide)
          exact Option.some.inj this
        rw [hu] at hmc
        exact (Option.some.inj hmc).symm
    rw [ht] at hce
    have hce4 : ce = ⟨4, 2, 4⟩ := by
      have : c3State.heap.get? 2 = some ⟨4, 2, 4⟩ := by decide
      rw [this] at hce
      exact (Option.some.inj hce).symm
    rw [hce4] at hgt
    exact absurd hgt (by decide)

/-- Claim C8: for every insertion order of the seven entries with priorities
1–7 under keys a–g (values encoding the priority digit), `peek` returns the
value of key g, the seven pops return the values in priority order
7, 6, 5, 4, 3, 2, 1, and afterwards the length is 0 and `peek`/`pop` signal
empty. -/
theorem c8_seven_entries (l : List (Nat × Char × Nat)) (hl : l.Perm c8Base) :
    peek (runInserts l) = some 7 ∧
    popList natCmp 7 (runInserts l) = [7, 6, 5, 4, 3, 2, 1] ∧
    len (popState natCmp 7 (runInserts l)) = 0 ∧
    peek (popState natCmp 7 (runInserts l)) = none ∧
    (pop natCmp (popState natCmp 7 (runInserts l))).2 = none := by
  have hordnew : HeapLe (new : PriorityMap Nat Char Nat) := by
    intro j pe ce hj hpe hce
    simp [PriorityMap.new] at hce
  have hmknew : MapKeysPerm (new : PriorityMap Nat Char Nat) := List.Perm.nil
  have hfresh : ∀ x ∈ l, ∀ e ∈ (new : PriorityMap Nat Char Nat).heap,
      e.key ≠ x.2.1 := by
    intro x hx e he
    simp [PriorityMap.new] at he
  have hnodup : (l.map fun x => x.2.1).Nodup := by
    have h1 : (l.map fun x => x.2.1).Perm (c8Base.map fun x => x.2.1) := hl.map _
    exact h1.nodup_iff.mpr (by decide)
  obtain ⟨hord, hmk, hperm⟩ := runInserts_go l new hordnew hmknew hfresh hnodup
  have hperm2 : (runInserts l).heap.Perm c8Expected := by
    refine hperm.trans ?_
    exact (hl.map toEntry).trans (by decide)
  have hpair : List.Pairwise
      (fun a b : Entry Nat Char Nat => b.priority < a.priority) c8Expected := by
    decide
  obtain ⟨hpl, hps⟩ := popRun_spec c8Expected (runInserts l) hord hmk hperm2 hpair
  have hpl7 : popList natCmp 7 (runInserts l) = c8Expected.map Entry.value := hpl
  have hps7 : popState natCmp 7 (runInserts l) = new := hps
  have hlen7 : (runInserts l).heap.length = 7 := by
    rw [hperm2.length_eq]
    rfl
  obtain ⟨r, h0⟩ : ∃ r, (runInserts l).heap.get? 0 = some r :=
    ⟨_, List.get?_eq_get (by omega)⟩
  have hr : r = ⟨7, 'g', 7⟩ := root_eq_head hord h0 hperm2 (by decide)
  refine ⟨?_, ?_, ?_, ?_, ?_⟩
  · unfold peek
    rw [h0, hr]
    rfl
  · rw [hpl7]
    rfl
  · rw [hps7]
    rfl
  · rw [hps7]
    rfl
  · rw [hps7]
    rfl

theorem c8_seven_entries_w :
    peek (runInserts c8Base) = some 7 ∧
    popList natCmp 7 (runInserts c8Base) = [7, 6, 5, 4, 3, 2, 1] ∧
    len (popState natCmp 7 (runInserts c8Base)) = 0 ∧
    peek (popState natCmp 7 (runInserts c8Base)) = none ∧
    (pop natCmp (popState natCmp 7 (runInserts c8Base))).2 = none :=
  c8_seven_entries c8Base (List.Perm.refl c8Base)

/-- Claim C10 counterexample: over the lawful product partial order on
`Nat × Nat`, the reachable state `c10State` binds key 100 with priority
`(1, 1)` at the root while the comparable, strictly greater `(5, 5)` sits at
a child position (an earlier `remove` left it there undetected).
Reprioritizing key 100 to its own current priority then returns
`some (1, 1)` but swaps the heap, so the structure is not left unchanged. -/
theorem c10_reprioritize_same_cex :
    Reachable prodCmp c10State ∧
    mapLookup c10State.map 100 = some 0 ∧
    (c10State.heap.get? 0).map (fun e => e.priority) = some (1, 1) ∧
    (reprioritize prodCmp c10State 100 (1, 1)).2 = some (1, 1) ∧
    (reprioritize prodCmp c10State 100 (1, 1)).1 ≠ c10State :=
  ⟨c10State_reachable, by decide, by decide, by decide, by decide⟩

/-- Claim C10 (amended): on a structure satisfying the twin heap order (for a
comparison that is reflexive on the key's priority and antisymmetric),
`reprioritize` with the key's current priority returns it and leaves the
structure completely unchanged: both sift conditions are strict, so the
equal priority triggers no swap and the index map is rewritten in place. -/
theorem c10_reprioritize_same (cmp : P → P → Option Ordering)
    (s : PriorityMap P K V) (k : K) (p : P) (pos : Nat) (e : Entry P K V)
    (hk : mapLookup s.map k = some pos) (he : s.heap.get? pos = some e)
    (hkey : e.key = k) (hp : e.priority = p) (hord : HeapOrd cmp s)
    (hrefl : cmp p p = some Ordering.eq)
    (hgt : ∀ a b : P, cmp a b = some Ordering.gt → cmp b a = some Ordering.lt) :
    reprioritize cmp s k p = (s, some p) := by
  have hpos : pos < s.heap.length := by
    obtain ⟨h, -⟩ := List.get?_eq_some.mp he
    exact h
  have hsetp : set_priority s pos p = s := by
    unfold set_priority
    rw [he]
    simp only []
    have hee : (⟨p, e.key, e.value⟩ : Entry P K V) = e := by
      rw [← hp]
    rw [hee, set_of_get? he]
  have hgc : greater_child cmp s pos = none := by
    rcases hmc : max_child cmp s pos with _ | m
    · exact greater_child_none_of_max_none hmc
    · obtain ⟨hcase, hml⟩ := max_child_some hmc
      obtain ⟨me, hme⟩ : ∃ me, s.heap.get? m = some me := ⟨_, List.get?_eq_get hml⟩
      refine greater_child_eq_none hmc hme he ?_
      intro hg
      have hlt := hgt me.priority e.priority hg
      have hm0 : 0 < m := by rcases hcase with h | h <;> omega
      have hpar : (m - 1) / 2 = pos := by rcases hcase with h | h <;> omega
      have hedge := hord m e me hm0 (by rw [hpar]; exact he) hme
      exact hedge hlt
  have hcond : ¬ cmp p e.priority = some Ordering.gt := by
    rw [hp, hrefl]
    simp
  unfold reprioritize
  rw [hk]
  simp only []
  unfold reprioritize_position
  rw [he]
  simp only []
  rw [if_neg hcond, hsetp]
  have hsink : (sink_down cmp s pos).1 = s := by
    unfold sink_down sift
    rw [he]
    simp only []
    obtain ⟨n, hn⟩ : ∃ n, s.heap.length = n + 1 := ⟨s.heap.length - 1, by omega⟩
    rw [hn]
    unfold siftGo
    rw [hgc]
    simp only []
    rw [hkey, mapInsert_eq_self hk]
  rw [hsink, hp]

theorem c10_reprioritize_same_w :
    reprioritize natCmp (⟨[⟨5, 0, 9⟩], [(0, 0)]⟩ : PriorityMap Nat Nat Nat) 0 5 =
      (⟨[⟨5, 0, 9⟩], [(0, 0)]⟩, some 5) := by
  refine c10_reprioritize_same natCmp _ 0 5 0 ⟨5, 0, 9⟩ (by decide) (by decide)
    rfl rfl ?_ (by decide) natCmp_gt_fn
  intro j pe ce hj hpe hce
  obtain ⟨hb, -⟩ := List.get?_eq_some.mp hce
  simp only [List.length_cons, List.length_nil] at hb
  omega

end PrioMap
